import Mathlib

/-
  Verification development for the ebnfcomp EBNF compiler (C source).

  The C program is embedded shallowly: machine state (scanner globals,
  the tree-node heap, output file contents) is an explicit record, heap
  pointers are indices into an arena list, and every C function becomes
  a Lean function in explicit state-passing style.  Functions whose C
  originals contain loops or recursion take an explicit fuel argument;
  running out of fuel is a distinguished error that never occurs for the
  concrete runs below.  `report`/`report2` (which print a diagnostic and
  call exit(EXIT_FAILURE)) are modelled as exceptional results carrying
  the diagnostic text and the state at exit.

  The 64-byte diagnostic ring buffer (storech/printrng) only affects the
  echo printed to stderr on abort and is not modelled; diagnostics are
  identified by their formatted message instead.
-/

namespace Ebnfcomp

/-- The token_t enumeration of the C source. -/
inductive Tok where
  | T_EOS
  | T_IDENTIFIER
  | T_STR_LITERAL
  | T_REG_EX
  | T_BRACK_EXPR
  | T_BRACE_EXPR
  | T_AND_EXPR
  | T_OR_EXPR
  | T_EXPR
  | T_PRODUCTION
  | T_PROD_LIST
  | T_BIN_DATA
  | T_BIN_FIELD
  | T_BIN_FIELD_COUNT
  | T_BIN_FIELD_TIMES
  deriving DecidableEq, Repr

open Tok

/-- The integer value of a token_t constant (C enums number from 0);
the C source compares tokens with `<`/`>` in several places. -/
def Tok.val : Tok → Nat
  | T_EOS => 0
  | T_IDENTIFIER => 1
  | T_STR_LITERAL => 2
  | T_REG_EX => 3
  | T_BRACK_EXPR => 4
  | T_BRACE_EXPR => 5
  | T_AND_EXPR => 6
  | T_OR_EXPR => 7
  | T_EXPR => 8
  | T_PRODUCTION => 9
  | T_PROD_LIST => 10
  | T_BIN_DATA => 11
  | T_BIN_FIELD => 12
  | T_BIN_FIELD_COUNT => 13
  | T_BIN_FIELD_TIMES => 14

/-- token2text from the C source. -/
def token2text : Tok → List Char
  | T_EOS => "T_EOS".toList
  | T_IDENTIFIER => "T_IDENTIFIER".toList
  | T_STR_LITERAL => "T_STR_LITERAL".toList
  | T_REG_EX => "T_REG_EX".toList
  | T_BRACK_EXPR => "T_BRACK_EXPR".toList
  | T_BRACE_EXPR => "T_BRACE_EXPR".toList
  | T_AND_EXPR => "T_AND_EXPR".toList
  | T_OR_EXPR => "T_OR_EXPR".toList
  | T_EXPR => "T_EXPR".toList
  | T_PRODUCTION => "T_PRODUCTION".toList
  | T_PROD_LIST => "T_PROD_LIST".toList
  | T_BIN_DATA => "T_BIN_DATA".toList
  | T_BIN_FIELD => "T_BIN_FIELD".toList
  | T_BIN_FIELD_COUNT => "T_BIN_FIELD_COUNT".toList
  | T_BIN_FIELD_TIMES => "T_BIN_FIELD_TIMES".toList

/-- treenode_t.  `text` is the nullable char* (None = NULL); `branches`
holds arena indices of the child nodes.  branchAlloc is the capacity of
the malloc'ed branch array and has no observable effect, so it is not
carried. -/
structure TreeNode where
  token : Tok
  text : Option (List Char)
  branches : List Nat
  exportIdent : Option (List Char)
  nodeTypeEnum : Option (List Char)
  id : Int
  branchesIx : Int
  refCnt : Int
  branchesOutput : Bool
  implOutput : Bool
  deriving DecidableEq, Repr

/-- The node heap: a C pointer is an index into this list.  delete_node
never unmaps a node; freeing is modelled by the field-clearing that the
C code performs right before free(). -/
abbrev Arena := List TreeNode

def getNode (a : Arena) (i : Nat) : Option TreeNode := a.get? i

def setNode (a : Arena) (i : Nat) (n : TreeNode) : Arena := a.set i n

def modifyNode (a : Arena) (i : Nat) (f : TreeNode → TreeNode) : Arena :=
  match a.get? i with
  | some n => a.set i (f n)
  | none => a

/-- create_node: malloc + field initialisation; returns the fresh index. -/
def create_node (a : Arena) (token : Tok) (text : Option (List Char)) : Nat × Arena :=
  (a.length,
   a ++ [{ token := token, text := text, branches := [], exportIdent := none,
           nodeTypeEnum := none, id := -1, branchesIx := -1, refCnt := 1,
           branchesOutput := false, implOutput := false }])

/-- add_branch (the branchAlloc doubling is allocation bookkeeping only). -/
def add_branch (a : Arena) (node : Nat) (branch : Nat) : Arena :=
  modifyNode a node (fun n => { n with branches := n.branches ++ [branch] })

/-- set_export_ident. -/
def set_export_ident (a : Arena) (node : Nat) (text : List Char) : Arena :=
  modifyNode a node (fun n => { n with exportIdent := some text })

/-- set_node_type_enum. -/
def set_node_type_enum (a : Arena) (node : Nat) (text : List Char) : Arena :=
  modifyNode a node (fun n => { n with nodeTypeEnum := some text })

/-- delete_node, in worklist form: the head node's refCnt is
decremented; at zero its fields are cleared the way the C code does
just before free() (token becomes T_EOS, text/branches released) and
its children are pushed in the reverse order in which the C loop
deletes them.  Fuel bounds the total number of visits. -/
def delete_aux : Nat → Arena → List Nat → Option Arena
  | 0, _, _ => none
  | _ + 1, a, [] => some a
  | fuel + 1, a, node :: rest =>
    match getNode a node with
    | none => delete_aux fuel a rest
    | some n =>
      if n.refCnt - 1 > 0 then
        delete_aux fuel (setNode a node { n with refCnt := n.refCnt - 1 }) rest
      else
        let a := setNode a node
          { n with refCnt := n.refCnt - 1, branchesIx := -1, id := -1,
                   nodeTypeEnum := none, exportIdent := none, branches := [],
                   text := none, token := T_EOS }
        delete_aux fuel a (n.branches.reverse ++ rest)

/-- delete_node proper. -/
def delete_node (fuel : Nat) (a : Arena) (node : Nat) : Option Arena :=
  delete_aux fuel a [node]

/-- The per-process machine state: scanner globals, the node heap, the
emitter globals and the four output streams of interest. -/
structure St where
  input : List Char
  ch : Option Char
  lno : Nat
  chx : Nat
  pb : List Char
  regexBuf : List Char
  arena : Arena
  tree : Option Nat
  hdr : List Char
  imp : List Char
  outS : List Char
  errS : List Char
  idCtr : Nat
  branchesIxCtr : Nat
  haveLabels : List (List Char)
  asmEnumCnt : Nat
  fileStem : List Char
  hdrfile : List Char
  deriving DecidableEq, Repr

/-- The ways a run can stop abnormally: report/report2 print a message
and exit(EXIT_FAILURE); outOfFuel flags insufficient fuel in the model
(never the case in the concrete runs below). -/
inductive Err where
  | outOfFuel : St → Err
  | report : List Char → St → Err
  | report2 : List Char → St → Err
  deriving DecidableEq, Repr

/-- The state a run ended in, whether it exited normally or abnormally. -/
def Err.state : Err → St
  | .outOfFuel st => st
  | .report _ st => st
  | .report2 _ st => st

instance [DecidableEq ε] [DecidableEq α] : DecidableEq (Except ε α) := fun a b =>
  match a, b with
  | .error x, .error y =>
    if h : x = y then .isTrue (by rw [h]) else .isFalse (fun c => h (by injection c))
  | .ok x, .ok y =>
    if h : x = y then .isTrue (by rw [h]) else .isFalse (fun c => h (by injection c))
  | .error _, .ok _ => .isFalse (by intro c; injection c)
  | .ok _, .error _ => .isFalse (by intro c; injection c)

abbrev M (α : Type) := Except Err (α × St)

/-- putback: pbbuf holds at most 256 characters (pbpos ranges -1..255);
on overflow the character is dropped, as in the C code. -/
def putback (c : Char) (st : St) : St :=
  if st.pb.length < 256 then { st with pb := c :: st.pb } else st

/-- putback applied to the int-typed current character: the C putback
stores (char)c, so pushing back EOF (-1) stores byte 0xFF. -/
def putbackInt (c : Option Char) (st : St) : St :=
  match c with
  | some d => putback d st
  | none => putback (Char.ofNat 255) st

/-- rdch0: take from the putback buffer first, else from stdin. -/
def rdch0 (st : St) : Option Char × St :=
  match st.pb with
  | c :: r => (some c, { st with pb := r })
  | [] =>
    match st.input with
    | c :: r => (some c, { st with input := r })
    | [] => (none, st)

/-- The comment body skip of rdch: `do { ch = rdch0(); } while (ch != newline && ch != EOF)`. -/
def skipCommentBody : Nat → St → Except Err (Option Char × St)
  | 0, st => .error (.outOfFuel st)
  | fuel + 1, st =>
    let (c, st) := rdch0 st
    match c with
    | none => .ok (none, st)
    | some d => if d = '\n' then .ok (some '\n', st) else skipCommentBody fuel st

/-- rdch's control flow: `none` is the RETRY label (read the next
character), `some c` is the REEVALUATE label with c already in hand. -/
def rdchAux : Nat → Option (Option Char) → St → Except Err St
  | 0, _, st => .error (.outOfFuel st)
  | fuel + 1, none, st =>
    let (c, st) := rdch0 st
    rdchAux fuel (some c) st
  | _ + 1, some none, st => .ok { st with ch := none }
  | fuel + 1, some (some c), st =>
    let st := if st.lno = 0 then { st with lno := 1, chx := 0 } else st
    if c = '\r' then rdchAux fuel none st
    else if c = '\n' then rdchAux fuel none { st with lno := st.lno + 1, chx := 0 }
    else if c = '-' then
      let (c2, st) := rdch0 st
      match c2 with
      | some d =>
        if d = '-' then
          match skipCommentBody (fuel + 1) st with
          | .ok (c3, st) => rdchAux fuel (some c3) st
          | .error e => .error e
        else
          let st := putback d st
          .ok { st with ch := some '-', chx := st.chx + 1 }
      | none =>
        let st := putbackInt none st
        .ok { st with ch := some '-', chx := st.chx + 1 }
    else
      .ok { st with ch := some c, chx := st.chx + 1 }

/-- rdch.  The C loop always terminates on a finite stream because every
iteration consumes pending input; the fuel computed from the pending
stream is always sufficient. -/
def rdch (st : St) : Except Err St :=
  rdchAux (2 * (st.pb.length + st.input.length) + 4) none st

/-- report: format the message, write the diagnostic and exit nonzero.
Modelled as an exceptional result carrying the message (without the
" in line %d near position %d" suffix) and the exit state. -/
def reportErr (msg : List Char) (st : St) : Except Err α :=
  .error (.report msg st)

/-- report2: same, for the emitter diagnostics. -/
def report2Err (msg : List Char) (st : St) : Except Err α :=
  .error (.report2 msg st)

/-- Sequencing helper for state-only steps. -/
def bindSt (x : Except Err St) (f : St → Except Err β) : Except Err β :=
  match x with
  | .ok st => f st
  | .error e => .error e

/-- Sequencing helper for value-producing steps. -/
def bindM (x : Except Err (α × St)) (f : α → St → Except Err β) : Except Err β :=
  match x with
  | .ok (a, st) => f a st
  | .error e => .error e

/-- skip_whitespace. -/
def skip_whitespace : Nat → St → Except Err St
  | 0, st => .error (.outOfFuel st)
  | fuel + 1, st =>
    if st.ch = some ' ' ∨ st.ch = some '\t' then
      bindSt (rdch st) (skip_whitespace fuel)
    else .ok st

/-- The int-typed scanner character viewed as the byte the C code stores
with (char)ch; EOF (-1) truncates to 0xFF. -/
def chChar (c : Option Char) : Char := c.getD (Char.ofNat 255)

/-- isxdigit(ch); false on EOF. -/
def isxdigit (c : Option Char) : Bool :=
  match c with
  | some c => (('0' ≤ c ∧ c ≤ '9') ∨ ('a' ≤ c ∧ c ≤ 'f') ∨ ('A' ≤ c ∧ c ≤ 'F') : Prop)
  | none => false

/-- The continuation test of read_identifier: [0-9a-z-]. -/
def isIdentCont (c : Option Char) : Bool :=
  match c with
  | some c => (('0' ≤ c ∧ c ≤ '9') ∨ ('a' ≤ c ∧ c ≤ 'z') ∨ c = '-' : Prop)
  | none => false

/-- A–Z test used by the keyword scanners; false on EOF. -/
def isUpperAZ (c : Option Char) : Bool :=
  match c with
  | some c => ('A' ≤ c ∧ c ≤ 'Z' : Prop)
  | none => false

/-- The digit-collecting loop of read_hexadecimal: stores at most 253
digits but keeps consuming. -/
def hexLoop : Nat → List Char → St → Except Err (List Char × St)
  | 0, _, st => .error (.outOfFuel st)
  | fuel + 1, acc, st =>
    if isxdigit st.ch then
      let acc := if acc.length < 253 then acc ++ [chChar st.ch] else acc
      bindSt (rdch st) (hexLoop fuel acc)
    else .ok (acc, st)

/-- read_hexadecimal: `$` followed by hex digits; an odd digit count is
shifted right and a leading '0' prepended.  Note: the C code stores the
digits unchanged (there is no tolower). -/
def read_hexadecimal (fuel : Nat) (st : St) : Except Err (Option Nat × St) :=
  if st.ch ≠ some '$' then .ok (none, st)
  else
    bindSt (rdch st) fun st =>
    bindM (hexLoop fuel [] st) fun digits st =>
    let digits := if digits.length % 2 = 1 then '0' :: digits else digits
    let (i, a) := create_node st.arena T_BIN_DATA (some digits)
    .ok (some i, { st with arena := a })

/-- The do-while body+test of read_identifier (first character is stored
unconditionally; at most 255 characters are stored). -/
def identLoop : Nat → List Char → St → Except Err (List Char × St)
  | 0, _, st => .error (.outOfFuel st)
  | fuel + 1, acc, st =>
    let acc := if acc.length < 255 then acc ++ [chChar st.ch] else acc
    bindSt (rdch st) fun st =>
      if isIdentCont st.ch then identLoop fuel acc st else .ok (acc, st)

/-- read_identifier.  The C function never returns NULL, so the result
is a plain node index. -/
def read_identifier (fuel : Nat) (st : St) : Except Err (Nat × St) :=
  bindM (identLoop fuel [] st) fun text st =>
  let (i, a) := create_node st.arena T_IDENTIFIER (some text)
  .ok (i, { st with arena := a })

/-- The do-while loop of read_str_literal: stores every character other
than the terminator while fewer than 255 are stored, and keeps
consuming until the terminator or EOF. -/
def strLitLoop : Nat → Option Char → List Char → St → Except Err (List Char × St)
  | 0, _, _, st => .error (.outOfFuel st)
  | fuel + 1, term, acc, st =>
    let acc := if st.ch ≠ term ∧ st.ch ≠ none ∧ acc.length < 255 then acc ++ [chChar st.ch] else acc
    bindSt (rdch st) fun st =>
      if st.ch ≠ term ∧ st.ch ≠ none then strLitLoop fuel term acc st else .ok (acc, st)

/-- read_str_literal: called with ch on the opening quote, which becomes
the terminator; an empty body aborts with "string literal is empty". -/
def read_str_literal (fuel : Nat) (st : St) : Except Err (Nat × St) :=
  let term := st.ch
  bindM (strLitLoop fuel term [] st) fun text st =>
  bindSt (rdch st) fun st =>
  if text = [] then reportErr "string literal is empty".toList st
  else
    let (i, a) := create_node st.arena T_STR_LITERAL (some text)
    .ok (i, { st with arena := a })

/-- store_regex_char: append to the 256-byte regex buffer (at most 255
characters are kept). -/
def store_regex_char (c : Char) (st : St) : St :=
  if st.regexBuf.length < 255 then { st with regexBuf := st.regexBuf ++ [c] } else st

/-- read_re_any. -/
def read_re_any (st : St) : Except Err (Bool × St) :=
  if st.ch ≠ some '.' then .ok (false, st)
  else
    let st := store_regex_char '.' st
    bindSt (rdch st) fun st => .ok (true, st)

/-- read_re_chr. -/
def read_re_chr (st : St) : Except Err (Bool × St) :=
  if st.ch = some '\\' then
    bindSt (rdch st) fun st =>
    match st.ch with
    | none => reportErr "unexpected end of file".toList st
    | some c =>
      let st := store_regex_char '\\' st
      let st := store_regex_char c st
      bindSt (rdch st) fun st => .ok (true, st)
  else
    match st.ch with
    | none => reportErr "unexpected end of file".toList st
    | some c =>
      if c = '/' ∨ c = '.' ∨ c = '*' ∨ c = '?' ∨ c = '[' ∨ c = '(' ∨ c = '|' then
        .ok (false, st)
      else
        let st := store_regex_char c st
        bindSt (rdch st) fun st => .ok (true, st)

/-- read_re_cc_chr. -/
def read_re_cc_chr (st : St) : Except Err (Bool × St) :=
  if st.ch = some '\\' then
    bindSt (rdch st) fun st =>
    match st.ch with
    | none => reportErr "unexpected end of file".toList st
    | some c =>
      let st := store_regex_char '\\' st
      let st := store_regex_char c st
      bindSt (rdch st) fun st => .ok (true, st)
  else
    match st.ch with
    | none => reportErr "unexpected end of file".toList st
    | some c =>
      if c = '\\' ∨ c = ']' then .ok (false, st)
      else
        let st := store_regex_char c st
        bindSt (rdch st) fun st => .ok (true, st)

/-- read_re_cc_item. -/
def read_re_cc_item (st : St) : Except Err (Bool × St) :=
  bindM (read_re_cc_chr st) fun ok1 st =>
  if !ok1 then .ok (false, st)
  else if st.ch = some '-' then
    let st := store_regex_char '-' st
    bindSt (rdch st) fun st =>
    bindM (read_re_cc_chr st) fun ok2 st =>
    if !ok2 then reportErr "bad character class in regular expression".toList st
    else .ok (true, st)
  else .ok (true, st)

/-- The { re-cc-item } loop of read_re_cc_items. -/
def reCcItemsLoop : Nat → St → Except Err St
  | 0, st => .error (.outOfFuel st)
  | fuel + 1, st =>
    bindM (read_re_cc_item st) fun more st =>
    if more then reCcItemsLoop fuel st else .ok st

/-- read_re_cc_items. -/
def read_re_cc_items (fuel : Nat) (st : St) : Except Err (Bool × St) :=
  bindM (read_re_cc_item st) fun ok1 st =>
  if !ok1 then .ok (false, st)
  else bindSt (reCcItemsLoop fuel st) fun st => .ok (true, st)

/-- read_re_cc. -/
def read_re_cc (fuel : Nat) (st : St) : Except Err (Bool × St) :=
  if st.ch ≠ some '[' then .ok (false, st)
  else
    let st := store_regex_char '[' st
    bindSt (rdch st) fun st =>
    bindSt (if st.ch = some '^' then
              bindSt (rdch (store_regex_char '^' st)) fun st => .ok st
            else .ok st) fun st =>
    bindM (read_re_cc_items fuel st) fun okItems st =>
    if !okItems ∨ st.ch ≠ some ']' then
      reportErr "bad character class in regular expression".toList st
    else
      let st := store_regex_char ']' st
      bindSt (rdch st) fun st => .ok (true, st)

/-- The mutually recursive regex sub-parser functions, identified by a
tag so that the whole nest is one structural recursion on fuel (the
loop tags stand for the two in-function repetition loops; they answer
true and only their state matters). -/
inductive RCall where
  | base
  | rept
  | andLoop
  | andE
  | orLoop
  | orE
  | expr
  deriving DecidableEq, Repr

/-- The regex sub-parser nest: each branch is the body of the
correspondingly named C function. -/
def reAux : Nat → RCall → St → Except Err (Bool × St)
  | 0, _, st => .error (.outOfFuel st)
  | fuel + 1, call, st =>
    match call with
    | .base =>
      -- read_re_base_expr
      bindM (read_re_cc fuel st) fun okCc st =>
      if okCc then .ok (true, st)
      else bindM (read_re_chr st) fun okChr st =>
      if okChr then .ok (true, st)
      else bindM (read_re_any st) fun okAny st =>
      if okAny then .ok (true, st)
      else if st.ch ≠ some '(' then .ok (false, st)
      else
        let st := store_regex_char '(' st
        bindSt (rdch st) fun st =>
        bindM (reAux fuel .expr st) fun okE st =>
        if !okE ∨ st.ch ≠ some ')' then
          reportErr "expression expected in regular expression".toList st
        else
          let st := store_regex_char ')' st
          bindSt (rdch st) fun st => .ok (true, st)
    | .rept =>
      -- read_re_repeat_expr
      bindM (reAux fuel .base st) fun okB st =>
      if !okB then .ok (false, st)
      else
        match st.ch with
        | some c =>
          if c = '+' ∨ c = '*' ∨ c = '?' then
            let st := store_regex_char c st
            bindSt (rdch st) fun st => .ok (true, st)
          else .ok (true, st)
        | none => .ok (true, st)
    | .andLoop =>
      -- the { re-repeat-expr } loop of read_re_and_expr
      bindM (reAux fuel .rept st) fun more st =>
      if more then reAux fuel .andLoop st else .ok (true, st)
    | .andE =>
      -- read_re_and_expr
      bindM (reAux fuel .rept st) fun ok1 st =>
      if !ok1 then .ok (false, st)
      else bindM (reAux fuel .andLoop st) fun _ st => .ok (true, st)
    | .orLoop =>
      -- the { '|' re-and-expr } loop of read_re_or_expr
      if st.ch ≠ some '|' then .ok (true, st)
      else
        let st := store_regex_char '|' st
        bindSt (rdch st) fun st =>
        bindM (reAux fuel .andE st) fun okA st =>
        if !okA then reportErr "expression expected in regular expression".toList st
        else reAux fuel .orLoop st
    | .orE =>
      -- read_re_or_expr
      bindM (reAux fuel .andE st) fun ok1 st =>
      if !ok1 then .ok (false, st)
      else bindM (reAux fuel .orLoop st) fun _ st => .ok (true, st)
    | .expr =>
      -- read_re_expr
      reAux fuel .orE st

/-- read_re_expr. -/
def read_re_expr (fuel : Nat) (st : St) : Except Err (Bool × St) :=
  reAux fuel .expr st

/-- read_regex: '/' re-expr '/'; the collected text buffer becomes the
single T_REG_EX node. -/
def read_regex (fuel : Nat) (st : St) : Except Err (Option Nat × St) :=
  if st.ch ≠ some '/' then .ok (none, st)
  else
    bindSt (rdch st) fun st =>
    let st := { st with regexBuf := [] }
    bindM (read_re_expr fuel st) fun okE st =>
    if !okE then reportErr "regular expression expected".toList st
    else if st.ch ≠ some '/' then
      reportErr "delimiter '/' expected after regular expression".toList st
    else
      bindSt (rdch st) fun st =>
      let (i, a) := create_node st.arena T_REG_EX (some st.regexBuf)
      .ok (some i, { st with arena := a })

/-- The greedy uppercase keyword scan shared by read_bin_match and
read_production: `do { tmp[pos++] = ch; rdch(); } while (pos < 5 && A–Z)`. -/
def kwLoop : Nat → List Char → St → Except Err (List Char × St)
  | 0, _, st => .error (.outOfFuel st)
  | fuel + 1, acc, st =>
    let acc := acc ++ [chChar st.ch]
    bindSt (rdch st) fun st =>
      if acc.length < 5 ∧ isUpperAZ st.ch then kwLoop fuel acc st else .ok (acc, st)

/-- The pushback sequence after a failed keyword match: putback(ch),
then the scanned characters in reverse order. -/
def pushbackKw (tmp : List Char) (st : St) : St :=
  tmp.reverse.foldl (fun s c => putback c s) (putbackInt st.ch st)

/-- read_bin_match. -/
def read_bin_match (fuel : Nat) (st : St) : Except Err (Option Nat × St) :=
  bindSt (skip_whitespace fuel st) fun st =>
  if st.ch = some '$' then read_hexadecimal fuel st
  else
    match st.ch with
    | some c =>
      if c = 'B' ∨ c = 'W' ∨ c = 'D' ∨ c = 'Q' then
        bindM (kwLoop fuel [] st) fun tmp st =>
        if tmp = "BYTE".toList ∨ tmp = "WORD".toList ∨ tmp = "DWORD".toList ∨
           tmp = "QWORD".toList then
          bindM
            (if st.ch = some ':' ∨ st.ch = some '*' then
              let t := if st.ch = some ':' then T_BIN_FIELD_COUNT else T_BIN_FIELD_TIMES
              bindSt (rdch st) fun st =>
              -- read_identifier never returns NULL, so the C null check
              -- (report "identifier expected after ':' or '*' in binary
              -- match") is unreachable.
              bindM (read_identifier fuel st) fun ident st =>
              .ok ((t, some ident), st)
            else .ok ((T_BIN_FIELD, (none : Option Nat)), st)) fun ti st =>
          let (i, a) := create_node st.arena ti.1 (some tmp)
          let a := match ti.2 with
                   | some ident => add_branch a i ident
                   | none => a
          .ok (some i, { st with arena := a })
        else
          let st := pushbackKw tmp st
          bindSt (rdch st) fun st => .ok (none, st)
      else .ok (none, st)
    | none => .ok (none, st)

/-- Decimal digits of a Nat (fuel-bounded auxiliary). -/
def natCharsAux : Nat → Nat → List Char
  | 0, _ => []
  | fuel + 1, n =>
    if n < 10 then [Char.ofNat (48 + n)]
    else natCharsAux fuel (n / 10) ++ [Char.ofNat (48 + n % 10)]

/-- Decimal rendering of a Nat, as printf %d produces. -/
def natChars (n : Nat) : List Char := natCharsAux (n + 1) n

/-- Decimal rendering of an Int, as printf %d produces. -/
def intChars (i : Int) : List Char :=
  if i < 0 then '-' :: natChars i.natAbs else natChars i.toNat

/-- The mutually recursive expression-parser functions, identified by a
tag so that the whole nest is one structural recursion on fuel.  The
two loop tags carry the wrapper node and the expression to be attached,
i.e. the loop-local variables of the C for(;;) loops; their result
value is meaningless (none) and only their state matters. -/
inductive ECall where
  | expr
  | orE
  | orLoop (node : Nat) (e : Nat)
  | andE
  | andLoop (node : Nat) (e : Nat)
  | baseE
  | parenE
  | brackE
  | braceE
  deriving DecidableEq, Repr

/-- The expression-parser nest: each branch is the body of the
correspondingly named C function.  In the single-child elisions of
read_or_expr/read_and_expr the C code nulls the branch slot before
delete_node so that the child survives; here the slot is cleared and
the wrapper deleted. -/
def exprAux : Nat → ECall → St → Except Err (Option Nat × St)
  | 0, _, st => .error (.outOfFuel st)
  | fuel + 1, call, st =>
    match call with
    | .expr =>
      -- read_expr
      exprAux fuel .orE st
    | .orE =>
      -- read_or_expr
      bindM (exprAux fuel .andE st) fun expr0 st =>
      match expr0 with
      | none => .ok (none, st)
      | some e0 =>
        let (node, a) := create_node st.arena T_OR_EXPR none
        bindM (exprAux fuel (.orLoop node e0) { st with arena := a }) fun _ st =>
        match getNode st.arena node with
        | some n =>
          if n.branches.length = 1 then
            let child := n.branches.headI
            let a := setNode st.arena node { n with branches := [] }
            match delete_node fuel a node with
            | some a => .ok (some child, { st with arena := a })
            | none => .error (.outOfFuel st)
          else .ok (some node, st)
        | none => .ok (some node, st)
    | .orLoop node expr =>
      -- the for(;;) loop of read_or_expr
      let st := { st with arena := add_branch st.arena node expr }
      bindSt (skip_whitespace fuel st) fun st =>
      if st.ch ≠ some '|' then .ok (none, st)
      else
        bindSt (rdch st) fun st =>
        bindM (exprAux fuel .andE st) fun e2 st =>
        match e2 with
        | none => reportErr "expression expected after '|'".toList st
        | some e2 => exprAux fuel (.orLoop node e2) st
    | .andE =>
      -- read_and_expr
      bindM (exprAux fuel .baseE st) fun expr0 st =>
      match expr0 with
      | none => .ok (none, st)
      | some e0 =>
        let (node, a) := create_node st.arena T_AND_EXPR none
        bindM (exprAux fuel (.andLoop node e0) { st with arena := a }) fun _ st =>
        match getNode st.arena node with
        | some n =>
          if n.branches.length = 1 then
            let child := n.branches.headI
            let a := setNode st.arena node { n with branches := [] }
            match delete_node fuel a node with
            | some a => .ok (some child, { st with arena := a })
            | none => .error (.outOfFuel st)
          else .ok (some node, st)
        | none => .ok (some node, st)
    | .andLoop node expr =>
      -- the for(;;) loop of read_and_expr
      let st := { st with arena := add_branch st.arena node expr }
      bindM (exprAux fuel .baseE st) fun e2 st =>
      match e2 with
      | none => .ok (none, st)
      | some e2 => exprAux fuel (.andLoop node e2) st
    | .baseE =>
      -- read_base_expr
      bindSt (skip_whitespace fuel st) fun st =>
      (match st.ch with
      | some c =>
        if c = '\'' ∨ c = '"' then
          bindM (read_str_literal fuel st) fun i st => .ok (some i, st)
        else if c = '/' then read_regex fuel st
        else if c = '(' then exprAux fuel .parenE st
        else if c = '[' then exprAux fuel .brackE st
        else if c = '\x7b' then exprAux fuel .braceE st
        else if ('a' ≤ c ∧ c ≤ 'z') ∨ ('0' ≤ c ∧ c ≤ '9') then
          bindM (read_identifier fuel st) fun i st => .ok (some i, st)
        else read_bin_match fuel st
      | none => read_bin_match fuel st)
    | .parenE =>
      -- read_paren_expr: parentheses return the inner expression unwrapped
      bindSt (rdch st) fun st =>
      bindM (exprAux fuel .expr st) fun expr st =>
      match expr with
      | none => reportErr "expression expected after '('".toList st
      | some e =>
        if st.ch ≠ some ')' then reportErr "closing parenthesis ')' expected".toList st
        else bindSt (rdch st) fun st => .ok (some e, st)
    | .brackE =>
      -- read_brack_expr
      bindSt (rdch st) fun st =>
      bindM (exprAux fuel .expr st) fun expr st =>
      match expr with
      | none => reportErr "expression expected after '['".toList st
      | some e =>
        if st.ch ≠ some ']' then reportErr "closing bracket ']' expected".toList st
        else
          bindSt (rdch st) fun st =>
          let (node, a) := create_node st.arena T_BRACK_EXPR none
          let a := add_branch a node e
          .ok (some node, { st with arena := a })
    | .braceE =>
      -- read_brace_expr
      bindSt (rdch st) fun st =>
      bindM (exprAux fuel .expr st) fun expr st =>
      match expr with
      | none => reportErr ("expression expected after '".toList ++ ['\x7b', '\'']) st
      | some e =>
        if st.ch ≠ some '\x7d' then
          reportErr ("closing brace '".toList ++ ['\x7d', '\''] ++ " expected".toList) st
        else
          bindSt (rdch st) fun st =>
          let (node, a) := create_node st.arena T_BRACE_EXPR none
          let a := add_branch a node e
          .ok (some node, { st with arena := a })

/-- read_expr. -/
def read_expr (fuel : Nat) (st : St) : Except Err (Option Nat × St) :=
  exprAux fuel .expr st

/-- read_production.  As written in the C source, the switch falls
through to the identifier only after a successful TOKEN match; a
production whose first character is not 'T' returns NULL, and a 'T'
that does not begin the TOKEN keyword is pushed back and NULL is
returned as well. -/
def read_production (fuel : Nat) (st : St) : Except Err (Option Nat × St) :=
  bindSt (skip_whitespace fuel st) fun st =>
  bindM
    (match st.ch with
     | some c =>
       if c = 'T' then
         bindM (kwLoop fuel [] st) fun tmp st =>
         if tmp = "TOKEN".toList then .ok ((true, true), st)
         else
           let st := pushbackKw tmp st
           bindSt (rdch st) fun st => .ok ((false, false), st)
       else .ok ((false, false), st)
     | none => .ok ((false, false), st)) fun (cont : Bool × Bool) st =>
  if !cont.1 then .ok (none, st)
  else
  bindSt (skip_whitespace fuel st) fun st =>
  bindM
    (match st.ch with
     | some c =>
       if ('0' ≤ c ∧ c ≤ '9') ∨ ('a' ≤ c ∧ c ≤ 'z') then
         bindM (read_identifier fuel st) fun i st => .ok (some i, st)
       else .ok ((none : Option Nat), st)
     | none => .ok ((none : Option Nat), st)) fun identOpt st =>
  match identOpt with
  | none => .ok (none, st)
  | some ident =>
    bindSt (skip_whitespace fuel st) fun st =>
    if st.ch ≠ some ':' then
      let chInt : Int := match st.ch with | some c => (c.toNat : Int) | none => -1
      let dispC : Char := match st.ch with
                          | some c => if c.toNat &&& 0x60 ≠ 0 then c else '.'
                          | none => Char.ofNat 255
      reportErr ("':' expected, but found '".toList ++ [dispC] ++ "' (".toList ++
                 intChars chInt ++ ")".toList) st
    else
    bindSt (rdch st) fun st =>
    if st.ch ≠ some '=' then reportErr "'=' expected".toList st
    else
    bindSt (rdch st) fun st =>
    bindM (read_expr fuel st) fun expr st =>
    match expr with
    | none => reportErr "expression expected in production".toList st
    | some e =>
      bindSt (skip_whitespace fuel st) fun st =>
      if st.ch ≠ some '.' then reportErr "'.' expected".toList st
      else
      bindSt (rdch st) fun st =>
      let identText := (getNode st.arena ident).bind (fun n => n.text)
      let (node, a) := create_node st.arena T_PRODUCTION identText
      match delete_node fuel a ident with
      | some a =>
        let a := add_branch a node e
        .ok (some node, { st with arena := a })
      | none => .error (.outOfFuel st)

/-- The do-while loop of read_prod_list. -/
def prodLoop : Nat → Nat → Nat → St → Except Err St
  | 0, _, _, st => .error (.outOfFuel st)
  | fuel + 1, node, prod, st =>
    let st := { st with arena := add_branch st.arena node prod }
    bindM (read_production fuel st) fun p2 st =>
    match p2 with
    | none => .ok st
    | some p2 => prodLoop fuel node p2 st

/-- read_prod_list. -/
def read_prod_list (fuel : Nat) (st : St) : Except Err (Option Nat × St) :=
  bindM (read_production fuel st) fun prod st =>
  match prod with
  | none => .ok (none, st)
  | some p =>
    let (node, a) := create_node st.arena T_PROD_LIST none
    bindSt (prodLoop fuel node p { st with arena := a }) fun st =>
    .ok (some node, st)

/-- The initial machine state: ch = EOF, empty putback buffer, empty
heap, with the given bytes pending on standard input. -/
def initSt (input : List Char) : St :=
  { input := input, ch := none, lno := 0, chx := 0, pb := [], regexBuf := [],
    arena := [], tree := none, hdr := [], imp := [], outS := [], errS := [],
    idCtr := 0, branchesIxCtr := 0, haveLabels := [], asmEnumCnt := 1,
    fileStem := [], hdrfile := [] }

/-- The parse phase exactly as main runs it: one rdch, then
read_prod_list. -/
def parseTop (fuel : Nat) (input : List Char) : Except Err (Option Nat × St) :=
  bindSt (rdch (initSt input)) fun st => read_prod_list fuel st

/-- find_literal_helper (node form `.inl` and its branch loop `.inr`):
first depth-first node with the given token and byte-equal text.
`none` means the fuel ran out (the C recursion terminates on the
tree-shaped heaps that arise in practice). -/
def find_literal_aux :
    Nat → Arena → (Option Nat ⊕ List Nat) → Option (List Char) → Tok →
    Option (Option Nat)
  | 0, _, _, _, _ => none
  | fuel + 1, a, .inl nid, text, token =>
    (match nid with
    | none => some none
    | some n =>
      match getNode a n with
      | none => some none
      | some node =>
        if node.token = token ∧ node.text = text then some (some n)
        else find_literal_aux fuel a (.inr node.branches) text token)
  | fuel + 1, a, .inr bs, text, token =>
    match bs with
    | [] => some none
    | b :: bs =>
      match find_literal_aux fuel a (.inl (some b)) text token with
      | none => none
      | some (some r) => some (some r)
      | some none => find_literal_aux fuel a (.inr bs) text token

/-- find_literal_helper proper.  The C function receives the querying
node but never uses it, so every occurrence — the query included — can
be returned. -/
def find_literal_helper (query : Nat) (fuel : Nat) (a : Arena) (nid : Option Nat)
    (text : Option (List Char)) (token : Tok) : Option (Option Nat) :=
  find_literal_aux fuel a (.inl nid) text token

/-- find_literal: search the whole tree from the global root. -/
def find_literal (fuel : Nat) (a : Arena) (root : Option Nat) (query : Nat)
    (text : Option (List Char)) (token : Tok) : Option (Option Nat) :=
  find_literal_helper query fuel a root text token

/-- deduplicate_literals (node form `.inl nid`, branch loop `.inr (n, i)`).
The result value of the node form is the possibly-redirected content of
the branch slot that held `nid` (the C code writes through pBranch);
the caller stores it back.  In the branch loop, branch i is re-read
from the current heap, rewritten in place, and only then is branch i+1
visited, exactly as the C loop does through node->branches[i].  The
global root used by find_literal stays fixed for the whole pass, as in
the C code, where the `tree` global is only rewritten through pBranch
at the top level. -/
def dedup_aux :
    Nat → Arena → Option Nat → (Option Nat ⊕ Nat × Nat) → Option (Option Nat × Arena)
  | 0, _, _, _ => none
  | fuel + 1, a, root, .inl nid =>
    (match nid with
    | none => some (none, a)
    | some n =>
      match getNode a n with
      | none => some (some n, a)
      | some node =>
        match
          (if node.token = T_STR_LITERAL ∨ node.token = T_REG_EX then
            find_literal fuel a root n node.text node.token
          else some none) with
        | none => none
        | some (some m) =>
          let a := modifyNode a m (fun x => { x with refCnt := x.refCnt + 1 })
          if n ≠ m then
            match delete_node fuel a n with
            | some a => some (some m, a)
            | none => none
          else some (some m, a)
        | some none => dedup_aux fuel a root (.inr (n, 0)))
  | fuel + 1, a, root, .inr (n, i) =>
    match getNode a n with
    | none => some (some n, a)
    | some node =>
      if h : i < node.branches.length then
        let b := node.branches.get ⟨i, h⟩
        match dedup_aux fuel a root (.inl (some b)) with
        | none => none
        | some (v, a) =>
          let a := modifyNode a n (fun x =>
            { x with branches := match v with
                                 | some v' => x.branches.set i v'
                                 | none => x.branches })
          dedup_aux fuel a root (.inr (n, i + 1))
      else some (some n, a)

/-- deduplicate_literals proper. -/
def deduplicate_literals (fuel : Nat) (a : Arena) (root : Option Nat)
    (nid : Option Nat) : Option (Option Nat × Arena) :=
  dedup_aux fuel a root (.inl nid)

/-- The canonicalization pass as main invokes it:
deduplicate_literals(&tree, tree). -/
def dedupTop (fuel : Nat) (a : Arena) (tree : Option Nat) :
    Option (Option Nat × Arena) :=
  deduplicate_literals fuel a tree tree

/-- name_to_C_enum: "NT_" prefix, dashes to underscores, uppercased. -/
def name_to_C_enum (name : List Char) : List Char :=
  ("NT_".toList ++ name).map fun c =>
    if c = '-' then '_' else if 'a' ≤ c ∧ c ≤ 'z' then c.toUpper else c

/-- is_export_node. -/
def is_export_node (t : Tok) : Bool :=
  match t with
  | T_PRODUCTION | T_STR_LITERAL | T_REG_EX | T_BIN_DATA | T_BIN_FIELD
  | T_BIN_FIELD_COUNT | T_BIN_FIELD_TIMES | T_AND_EXPR | T_OR_EXPR
  | T_BRACK_EXPR | T_BRACE_EXPR => true
  | _ => false

/-- is_name: every byte in [a-zA-Z0-9_]; an empty text qualifies. -/
def is_name (text : List Char) : Bool :=
  text.all fun c =>
    (('a' ≤ c ∧ c ≤ 'z') ∨ ('A' ≤ c ∧ c ≤ 'Z') ∨ ('0' ≤ c ∧ c ≤ '9') ∨ c = '_' : Prop)

/-- name_to_label: lowercase letters uppercased, everything else kept. -/
def name_to_label (text : List Char) : List Char :=
  text.map fun c => if 'a' ≤ c ∧ c ≤ 'z' then c.toUpper else c

/-- operator_to_label, in the table order of the C source. -/
def operator_to_label (text : List Char) : Option (List Char) :=
  let map : List (String × String) :=
    [("<>", "NE"), ("!=", "CNE"), ("==", "DEQ"), ("=", "EQ"), (">=", "GE"),
     ("<=", "LE"), ("<", "LT"), (">", "GT"), ("&", "AND"), ("&&", "LOGAND"),
     ("|", "OR"), ("||", "LOGOR"), (";", "SEMIC"), (",", "COMMA"), (":", "COLON"),
     ("(", "LPAREN"), (")", "RPAREN"), ("[", "LBRACK"), ("]", "RBRACK"),
     ("\x7b", "LBRACE"), ("\x7d", "RBRACE"), ("^", "XOR"), ("^^", "LOGXOR"),
     ("*", "STAR"), ("**", "DBLSTAR"), ("/", "SLASH"), ("+", "PLUS"),
     ("-", "MINUS"), (":=", "ASSIGN"), ("::=", "ASSIGN2"), ("~=", "APPLY"),
     ("++", "PLUSPLUS"), ("--", "MINUSMINUS"), ("+=", "PLUSEQ"), ("-=", "MINUSEQ"),
     ("*=", "STAREQ"), ("/=", "SLASHEQ"), ("&=", "ANDEQ"), ("|=", "OREQ"),
     ("^=", "XOREQ"), (".", "DOT"), ("!", "EXCLAM"), ("<<", "LSHIFT"),
     (">>", "RSHIFT"), ("%", "MODULO"), ("%=", "MODULOEQ"), ("...", "ELLIPSIS"),
     ("..", "RANGE")]
  (map.find? (fun p => p.1.toList = text)).map (fun p => p.2.toList)

/-- check_have_label: true when the label was alredy recorded, otherwise
record it and answer false. -/
def check_have_label (text : List Char) (st : St) : Bool × St :=
  if text ∈ st.haveLabels then (true, st)
  else (false, { st with haveLabels := st.haveLabels ++ [text] })

/-- Left-justified %-23s padding. -/
def padTo23 (s : List Char) : List Char :=
  s ++ List.replicate (23 - s.length) ' '

/-- output_enums_helper (node form `.inl`, branch loop `.inr`): assign
ids and nodeTypeEnum tags in depth-first preorder and print each fresh
printable tag to the header stream. -/
def output_enums_aux : Nat → (Option Nat ⊕ List Nat) → Bool → St → Except Err St
  | 0, _, _, st => .error (.outOfFuel st)
  | fuel + 1, .inr bs, doasm, st =>
    (match bs with
    | [] => .ok st
    | b :: bs =>
      bindSt (output_enums_aux fuel (.inl (some b)) doasm st) fun st =>
      output_enums_aux fuel (.inr bs) doasm st)
  | fuel + 1, .inl nid, doasm, st =>
    match nid with
    | none => .ok st
    | some n =>
      match getNode st.arena n with
      | none => .ok st
      | some node =>
        bindSt
          (if is_export_node node.token ∧ node.id = -1 then
            let (tmp, print, st) :=
              if node.token = T_PRODUCTION then
                (name_to_C_enum (node.text.getD []), true, st)
              else if node.token = T_STR_LITERAL ∨ node.token = T_REG_EX then
                if is_name (node.text.getD []) then
                  let tmp := "NT_TERMINAL_".toList ++ name_to_label (node.text.getD [])
                  let (have1, st) := check_have_label tmp st
                  (tmp, !have1, st)
                else
                  match operator_to_label (node.text.getD []) with
                  | some lbl =>
                    let tmp := "NT_TERMINAL_".toList ++ lbl
                    let (have1, st) := check_have_label tmp st
                    (tmp, !have1, st)
                  | none =>
                    ("NT_TERMINAL_".toList ++ natChars st.idCtr, true, st)
              else
                ("_NT_GENERIC".toList, false, st)
            let st := { st with arena := set_node_type_enum st.arena n tmp }
            let st :=
              if print then
                if doasm then
                  { st with
                    hdr := st.hdr ++ padTo23 tmp ++ " equ         ".toList ++
                           natChars st.asmEnumCnt ++ ['\n'],
                    asmEnumCnt := st.asmEnumCnt + 1 }
                else
                  { st with hdr := st.hdr ++ "    ".toList ++ tmp ++ ",\n".toList }
              else st
            let st := { st with
              arena := modifyNode st.arena n (fun x => { x with id := (st.idCtr : Int) }),
              idCtr := st.idCtr + 1 }
            .ok st
          else .ok st) fun st =>
        output_enums_aux fuel (.inr ((getNode st.arena n).map (·.branches) |>.getD []))
          doasm st

/-- output_enums_helper proper. -/
def output_enums_helper (fuel : Nat) (nid : Option Nat) (doasm : Bool)
    (st : St) : Except Err St :=
  output_enums_aux fuel (.inl nid) doasm st

/-- name_to_C_name: prefix plus name, dashes to underscores. -/
def name_to_C_name (name : List Char) (pfx : List Char) : List Char :=
  (pfx ++ name).map fun c => if c = '-' then '_' else c

/-- output_decls_helper (node form `.inl`, branch loop `.inr`): assign
export identifiers and branch-array offsets in depth-first preorder. -/
def output_decls_aux : Nat → (Option Nat ⊕ List Nat) → St → Except Err St
  | 0, _, st => .error (.outOfFuel st)
  | fuel + 1, .inr bs, st =>
    (match bs with
    | [] => .ok st
    | b :: bs =>
      bindSt (output_decls_aux fuel (.inl (some b)) st) fun st =>
      output_decls_aux fuel (.inr bs) st)
  | fuel + 1, .inl nid, st =>
    match nid with
    | none => .ok st
    | some n =>
      match getNode st.arena n with
      | none => .ok st
      | some node =>
        let st :=
          if node.id ≥ 0 ∧ node.exportIdent = none then
            let pfx : List Char :=
              (match node.token with
               | T_PRODUCTION => "production_"
               | T_STR_LITERAL => "string_terminal_"
               | T_REG_EX => "regex_terminal_"
               | T_AND_EXPR => "mandatory_expr_"
               | T_OR_EXPR => "alternative_expr_"
               | T_BRACK_EXPR => "optional_expr_"
               | T_BRACE_EXPR => "optional_repetitive_expr_"
               | _ => "").toList
            let numId := node.token ≠ T_PRODUCTION
            let nameText :=
              if numId then pfx ++ intChars node.id
              else name_to_C_name (node.text.getD []) pfx
            let st := { st with arena := set_export_ident st.arena n nameText }
            if node.branches.length ≠ 0 then
              { st with
                arena := modifyNode st.arena n
                  (fun x => { x with branchesIx := (st.branchesIxCtr : Int) }),
                branchesIxCtr := st.branchesIxCtr + node.branches.length }
            else st
          else st
        output_decls_aux fuel (.inr ((getNode st.arena n).map (·.branches) |>.getD [])) st

/-- output_decls_helper proper. -/
def output_decls_helper (fuel : Nat) (nid : Option Nat) (st : St) :
    Except Err St :=
  output_decls_aux fuel (.inl nid) st

/-- find_prod_id (node form `.inl`, branch loop `.inr`): id of the
first production with the given name, else -1. -/
def find_prod_aux :
    Nat → Arena → (Option Nat ⊕ List Nat) → Option (List Char) → Option Int
  | 0, _, _, _ => none
  | fuel + 1, a, .inl nid, name =>
    (match nid with
    | none => some (-1)
    | some n =>
      match getNode a n with
      | none => some (-1)
      | some node =>
        if node.token = T_PRODUCTION ∧ node.text = name then some node.id
        else find_prod_aux fuel a (.inr node.branches) name)
  | fuel + 1, a, .inr bs, name =>
    match bs with
    | [] => some (-1)
    | b :: bs =>
      match find_prod_aux fuel a (.inl (some b)) name with
      | none => none
      | some i => if i ≥ 0 then some i else find_prod_aux fuel a (.inr bs) name

/-- find_prod_id proper. -/
def find_prod_id (fuel : Nat) (a : Arena) (nid : Option Nat)
    (name : Option (List Char)) : Option Int :=
  find_prod_aux fuel a (.inl nid) name

/-- One iteration of the branch-emission loop inside
output_branches_helper: write the slot for child `bid` of a node with
token `parentTok` to the implementation stream (C back-end). -/
def outBranchEntry (fuel : Nat) (parentTok : Tok) (bid : Nat) (st : St) :
    Except Err St :=
  match getNode st.arena bid with
  | none => .ok st
  | some branch =>
    if branch.id ≥ 0 then
      .ok { st with imp := st.imp ++ intChars branch.id ++ ", ".toList }
    else
      match (if branch.token = T_IDENTIFIER then
               find_prod_id fuel st.arena st.tree branch.text
             else some (-1)) with
      | none => .error (.outOfFuel st)
      | some pid =>
        if branch.token = T_IDENTIFIER ∧ pid ≥ 0 then
          .ok { st with imp := st.imp ++ intChars pid ++ ", ".toList }
        else if parentTok ≠ T_BIN_DATA ∧
                (parentTok.val < T_BIN_FIELD.val ∨ parentTok.val > T_BIN_FIELD_TIMES.val) then
          if branch.token = T_IDENTIFIER then
            report2Err ("production '".toList ++ branch.text.getD [] ++
                        "' not found".toList) st
          else
            .ok { st with imp := st.imp ++ "-1 /* ".toList ++ token2text branch.token ++
                                 " */, ".toList }
        else
          .ok { st with imp := st.imp ++ "-2 /* ".toList ++ token2text branch.token ++
                               " */, ".toList }

/-- The branch loop of output_branches_helper over a node's children. -/
def outBranchEntries (fuel : Nat) (parentTok : Tok) :
    List Nat → St → Except Err St
  | [], st => .ok st
  | b :: bs, st =>
    bindSt (outBranchEntry fuel parentTok b st) fun st =>
    outBranchEntries fuel parentTok bs st

/-- output_branches_helper (node form `.inl`, search loop `.inr`): find
the node owning branch-array offset `index`, emit its branch slots, and
answer how many slots were written. -/
def output_branches_aux :
    Nat → (Option Nat ⊕ List Nat) → Int → St → Except Err (Nat × St)
  | 0, _, _, st => .error (.outOfFuel st)
  | fuel + 1, .inl nid, index, st =>
    (match nid with
    | none => .ok (0, st)
    | some n =>
      match getNode st.arena n with
      | none => .ok (0, st)
      | some node =>
        if node.id ≥ 0 ∧ node.branchesIx = index then
          let st := { st with
            imp := st.imp ++ "    // ".toList ++ intChars node.branchesIx ++
                   ": ".toList ++ node.exportIdent.getD [] ++
                   " branches\n    ".toList }
          bindSt (outBranchEntries fuel node.token node.branches st) fun st =>
          .ok (node.branches.length, { st with imp := st.imp ++ ['\n'] })
        else output_branches_aux fuel (.inr node.branches) index st)
  | fuel + 1, .inr bs, index, st =>
    match bs with
    | [] => .ok (0, st)
    | b :: bs =>
      bindM (output_branches_aux fuel (.inl (some b)) index st) fun cnt st =>
      if cnt ≠ 0 then .ok (cnt, st)
      else output_branches_aux fuel (.inr bs) index st

/-- output_branches_helper proper. -/
def output_branches_helper (fuel : Nat) (nid : Option Nat) (index : Int)
    (st : St) : Except Err (Nat × St) :=
  output_branches_aux fuel (.inl nid) index st

/-- output_branches: `for (i = 0; i < branches_ix;) i += helper(tree, i)`.
A zero step would loop forever in C; here the fuel runs out. -/
def output_branches : Nat → Nat → St → Except Err St
  | 0, _, st => .error (.outOfFuel st)
  | fuel + 1, i, st =>
    if i < st.branchesIxCtr then
      bindM (output_branches_helper fuel st.tree (i : Int) st) fun cnt st =>
      output_branches fuel (i + cnt) st
    else .ok st

/-- The nibble characters of "0123456789abcdef"[n]. -/
def nibbleChar (n : Nat) : Char :=
  if n < 10 then Char.ofNat (48 + n) else Char.ofNat (87 + n)

/-- text_to_C_text: C-escape a byte run into a buffer of capacity 510
(quotes and backslashes escaped, bytes with both 0x20 and 0x40 clear
rendered as \xHH). -/
def text_to_C_text (text : List Char) : List Char :=
  let step (acc : List Char) (c : Char) : List Char :=
    if c = '"' then
      (if acc.length + 2 ≤ 510 then acc ++ ['\\', '"'] else acc)
    else if c = '\\' then
      (if acc.length + 2 ≤ 510 then acc ++ ['\\', '\\'] else acc)
    else if c.toNat &&& 0x60 ≠ 0 ∧ acc.length + 1 ≤ 510 then acc ++ [c]
    else if c.toNat &&& 0x60 = 0 ∧ acc.length + 4 ≤ 510 then
      acc ++ ['\\', 'x', nibbleChar ((c.toNat >>> 4) &&& 15), nibbleChar (c.toNat &&& 15)]
    else acc
  text.foldl step []

/-- The hex value sscanf %x reads from one character. -/
def hexVal (c : Char) : Option Nat :=
  if '0' ≤ c ∧ c ≤ '9' then some (c.toNat - 48)
  else if 'a' ≤ c ∧ c ≤ 'f' then some (c.toNat - 87)
  else if 'A' ≤ c ∧ c ≤ 'F' then some (c.toNat - 55)
  else none

/-- sscanf("%x") on a two-character chunk: longest hex prefix; a failed
parse leaves the C variable at its initial 0. -/
def hexPairVal (c0 c1 : Char) : Nat :=
  match hexVal c0 with
  | none => 0
  | some h0 =>
    match hexVal c1 with
    | none => h0
    | some h1 => 16 * h0 + h1

/-- The BIN_DATA decode loop of output_impls_helper: consume the hex
text two characters at a time (len/2 bytes, capped at 256). -/
def decodeHexPairs : Nat → List Char → List Char
  | 0, _ => []
  | _ + 1, [] => []
  | _ + 1, [_] => []
  | nb + 1, c0 :: c1 :: rest => Char.ofNat (hexPairVal c0 c1) :: decodeHexPairs nb rest

/-- output_impls_helper (node form `.inl`, search loop `.inr`): emit
the parsing-table row of the node with the requested id (C back-end). -/
def output_impls_aux :
    Nat → (Option Nat ⊕ List Nat) → Int → St → Except Err (Bool × St)
  | 0, _, _, st => .error (.outOfFuel st)
  | fuel + 1, .inr bs, idWanted, st =>
    (match bs with
    | [] => .ok (false, st)
    | b :: bs =>
      bindM (output_impls_aux fuel (.inl (some b)) idWanted st) fun found st =>
      if found then .ok (true, st)
      else output_impls_aux fuel (.inr bs) idWanted st)
  | fuel + 1, .inl nid, idWanted, st =>
    match nid with
    | none => .ok (false, st)
    | some n =>
      match getNode st.arena n with
      | none => .ok (false, st)
      | some node =>
        if node.id = idWanted then
          let numId := node.token ≠ T_PRODUCTION
          let isTerm := node.token = T_STR_LITERAL ∨ node.token = T_REG_EX ∨
                        node.token = T_BIN_DATA ∨
                        (T_BIN_FIELD.val ≤ node.token.val ∧ node.token.val ≤ T_BIN_FIELD_TIMES.val)
          let termType : List Char :=
            (if numId ∧ isTerm then
              if node.token = T_STR_LITERAL then "TT_STRING"
              else if node.token = T_REG_EX then "TT_REGEX"
              else "TT_BINARY"
            else "TT_UNDEF").toList
          let nodeClass : List Char :=
            (if !numId then "NC_PRODUCTION"
             else if isTerm then "NC_TERMINAL"
             else match node.token with
                  | T_AND_EXPR => "NC_MANDATORY"
                  | T_OR_EXPR => "NC_ALTERNATIVE"
                  | T_BRACK_EXPR => "NC_OPTIONAL"
                  | T_BRACE_EXPR => "NC_OPTIONAL_REPETITIVE"
                  | _ => "???").toList
          let text : List Char :=
            if numId then
              match node.text with
              | none => "0".toList
              | some t =>
                let tmp : List Char :=
                  if node.token = T_STR_LITERAL ∨ node.token = T_REG_EX then
                    text_to_C_text t
                  else if node.token = T_BIN_DATA then
                    let nb := min (t.length / 2) 256
                    text_to_C_text (decodeHexPairs nb t)
                  else if T_BIN_FIELD.val ≤ node.token.val ∧
                          node.token.val ≤ T_BIN_FIELD_TIMES.val then
                    let v0 : Nat :=
                      if t = "BYTE".toList then 0x02
                      else if t = "WORD".toList then 0x03
                      else if t = "DWORD".toList then 0x04
                      else if t = "QWORD".toList then 0x05
                      else 0
                    let v1 := if node.branches.length > 0 then v0 ||| 0x10 else v0
                    let v2 := if node.token = T_BIN_FIELD_COUNT then v1 ||| 0x20 else v1
                    text_to_C_text [Char.ofNat v2]
                  else []
                '"' :: tmp ++ ['"']
            else "0".toList
          let st := { st with
            imp := st.imp ++ "    // ".toList ++ intChars node.id ++ ": ".toList ++
                   node.exportIdent.getD [] ++ "\n    \x7b ".toList ++ nodeClass ++
                   ", ".toList ++ node.nodeTypeEnum.getD [] ++ ", ".toList ++
                   termType ++ ", ".toList ++ text ++ ", ".toList ++
                   natChars node.branches.length ++ ", ".toList ++
                   intChars node.branchesIx ++ " \x7d,\n".toList }
          .ok (true, st)
        else output_impls_aux fuel (.inr node.branches) idWanted st

/-- output_impls_helper proper. -/
def output_impls_helper (fuel : Nat) (nid : Option Nat) (idWanted : Int)
    (st : St) : Except Err (Bool × St) :=
  output_impls_aux fuel (.inl nid) idWanted st

/-- output_impls: emit the rows in id order. -/
def output_impls : Nat → Nat → St → Except Err St
  | 0, _, st => .error (.outOfFuel st)
  | fuel + 1, i, st =>
    if i < st.idCtr then
      bindM (output_impls_helper fuel st.tree (i : Int) st) fun _ st =>
      output_impls fuel (i + 1) st
    else .ok st

/-- The include-guard symbol: the header file name uppercased, with
'.', '/', backslash and ':' replaced by underscores. -/
def hdrSymOf (hdrfile : List Char) : List Char :=
  hdrfile.map fun c =>
    if 'a' ≤ c ∧ c ≤ 'z' then c.toUpper
    else if c = '.' ∨ c = '/' ∨ c = '\\' ∨ c = ':' then '_'
    else c

/-- output_code: the C back-end, emitting the header and implementation
streams exactly in the order the C function interleaves them. -/
def output_code (fuel : Nat) (st : St) : Except Err St :=
  let hdrsym := hdrSymOf st.hdrfile
  let st := { st with hdr := st.hdr ++
    ("// code auto-generated by ebnfcomp; do not modify!\n" ++
     "// (code might get overwritten during next ebnfcomp invocation)\n\n" ++
     "#ifndef ").toList ++ hdrsym ++ "\n#define ".toList ++ hdrsym ++
    (" 1\n\n#include <stddef.h>\n\n" ++
     "typedef enum _nodeclass_t \x7b\n" ++
     "    NC_TERMINAL,\n    NC_PRODUCTION,\n    NC_MANDATORY,\n" ++
     "    NC_ALTERNATIVE,\n    NC_OPTIONAL,\n    NC_OPTIONAL_REPETITIVE,\n" ++
     "\x7d nodeclass_t;\n\n" ++
     "typedef enum _terminaltype_t \x7b\n" ++
     "    TT_UNDEF,\n    TT_STRING,\n    TT_REGEX,\n    TT_BINARY,\n" ++
     "\x7d terminaltype_t;\n\n" ++
     "enum \x7b\n" ++
     "    TB_UNDEF  = 0x00,\n    TB_DATA   = 0x01,\n    TB_BYTE   = 0x02,\n" ++
     "    TB_WORD   = 0x03,\n    TB_DWORD  = 0x04,\n    TB_QWORD  = 0x05,\n" ++
     "    TBF_PARAM = 0x10,\n    TBF_WRITE = 0x20,\n\x7d;\n\n" ++
     "typedef enum _nodetype_t \x7b\n    _NT_GENERIC,\n").toList }
  bindSt (output_enums_helper fuel st.tree false st) fun st =>
  let st := { st with hdr := st.hdr ++
    ("\x7d nodetype_t;\n\n" ++
     "typedef struct _parsingnode_t \x7b\n" ++
     "    nodeclass_t        nodeClass;\n" ++
     "    nodetype_t         nodeType;\n" ++
     "    terminaltype_t     termType;\n" ++
     "    const char*        text;\n" ++
     "    size_t             numBranches;\n" ++
     "    int                branches;\n" ++
     "\x7d parsingnode_t;\n\n").toList }
  bindSt (output_decls_helper fuel st.tree st) fun st =>
  let st := { st with hdr := st.hdr ++ "extern const int ".toList ++ st.fileStem ++
    "_branches[".toList ++ natChars st.branchesIxCtr ++ "];\n".toList }
  let st := { st with imp := st.imp ++
    ("// code auto-generated by ebnfcomp; do not modify!\n" ++
     "// (code might get overwritten during next ebnfcomp invocation)\n\n" ++
     "#include \"").toList ++ st.hdrfile ++ "\"\n\n// branches\n\nconst int ".toList ++
    st.fileStem ++ "_branches[".toList ++ natChars st.branchesIxCtr ++
    "] = \x7b\n".toList }
  bindSt (output_branches fuel 0 st) fun st =>
  let st := { st with hdr := st.hdr ++ "extern const parsingnode_t ".toList ++
    st.fileStem ++ "_parsingTable[".toList ++ natChars st.idCtr ++ "];\n\n".toList }
  let st := { st with hdr := st.hdr ++ "#endif\n".toList }
  let st := { st with imp := st.imp ++ "\x7d;\n\nconst parsingnode_t ".toList ++
    st.fileStem ++ "_parsingTable[".toList ++ natChars st.idCtr ++
    "] = \x7b\n".toList }
  bindSt (output_impls fuel 0 st) fun st =>
  .ok { st with imp := st.imp ++ "\x7d;\n\n".toList }

/-- dump_tree_node (node form `.inl`, branch loop `.inr`): the --tree
dump, "%-*.*s%s\n" with an empty string producing exactly `indent`
spaces. -/
def dump_tree_aux : Nat → (Option Nat ⊕ List Nat) → Nat → St → Except Err St
  | 0, _, _, st => .error (.outOfFuel st)
  | fuel + 1, .inl nid, indent, st =>
    (match nid with
    | none => .ok st
    | some n =>
      match getNode st.arena n with
      | none => .ok st
      | some node =>
        let line := List.replicate indent ' ' ++ token2text node.token ++
          (match node.text with
           | some t => " '".toList ++ t ++ ['\'']
           | none => []) ++ ['\n']
        let st := { st with outS := st.outS ++ line }
        dump_tree_aux fuel (.inr node.branches) (indent + 2) st)
  | fuel + 1, .inr bs, indent, st =>
    match bs with
    | [] => .ok st
    | b :: bs =>
      bindSt (dump_tree_aux fuel (.inl (some b)) indent st) fun st =>
      dump_tree_aux fuel (.inr bs) indent st

/-- dump_tree_node proper. -/
def dump_tree_node (fuel : Nat) (nid : Option Nat) (indent : Nat) (st : St) :
    Except Err St :=
  dump_tree_aux fuel (.inl nid) indent st

/-- The help text of the C program. -/
def helpText : List Char :=
  ("usage: ebnfcomp [options] <file-stem>\n" ++
   "options:\n" ++
   "    --help, -h                 (this)\n" ++
   "    --tree, -t                 output syntax tree\n" ++
   "    --asm , -a                 output assembly language, not C\n" ++
   "default behavior:\n" ++
   "    compiles EBNF specified on standard input to internal form,\n" ++
   "    then outputs C or assembly language code for a parsing table to\n" ++
   "    a header and implementation file named using <file-stem>.\n").toList

/-- The outcome of main's argument loop: an early exit, or the flags and
optional file stem it accumulated. -/
inductive ArgsOut where
  | exitWith : Nat → ArgsOut
  | go : Bool → Bool → Option (List Char) → ArgsOut
  deriving DecidableEq, Repr

/-- The option-processing loop of main. -/
def argLoop : List (List Char) → Bool → Bool → Option (List Char) → St →
    ArgsOut × St
  | [], printTree, printAsm, stem, st => (.go printTree printAsm stem, st)
  | arg :: rest, printTree, printAsm, stem, st =>
    if arg = "--help".toList ∨ arg = "-h".toList then
      (.exitWith 0, { st with outS := st.outS ++ helpText })
    else if arg = "--tree".toList ∨ arg = "-t".toList then
      argLoop rest true printAsm stem st
    else if arg = "--asm".toList ∨ arg = "-a".toList then
      argLoop rest printTree true stem st
    else if stem = none ∧ arg.head? ≠ some '-' then
      argLoop rest printTree printAsm (some arg)
        { st with outS := st.outS ++ "file stem is '".toList ++ arg ++ "'\n".toList }
    else if arg.head? = some '-' then
      (.exitWith 1, { st with errS := st.errS ++ "unknown option '".toList ++ arg ++
                              "'\n".toList })
    else
      (.exitWith 1, { st with errS := st.errS ++ "unknown parameter '".toList ++ arg ++
                              "'\n".toList })

/-- main.  File creation always succeeds in the model (the fopen failure
paths depend on the host file system and concern no claim); the NASM
back-end (--asm) is outside the scope of the claims and is not modelled,
so that path stops with outOfFuel rather than pretending an answer. -/
def mainC (fuel : Nat) (argv : List (List Char)) (input : List Char) :
    Except Err (Nat × St) :=
  let st := initSt input
  match argLoop argv false false none st with
  | (.exitWith code, st) => .ok (code, st)
  | (.go printTree printAsm stemOpt, st) =>
    match stemOpt with
    | none =>
      .ok (1, { st with errS := st.errS ++ "missing parameter, see --help\n".toList })
    | some stem =>
      let st := { st with fileStem := stem,
                          hdrfile := stem ++ (if printAsm then ".inc" else ".h").toList }
      bindSt (rdch st) fun st =>
      bindM (read_prod_list fuel st) fun prodlist st =>
      match prodlist with
      | none => reportErr "production list expected".toList st
      | some pl =>
        if printTree then
          bindSt (dump_tree_node fuel (some pl) 0 st) fun st => .ok (0, st)
        else
          let st := { st with tree := some pl }
          match dedupTop fuel st.arena st.tree with
          | none => .error (.outOfFuel st)
          | some (v, a) =>
            let st := { st with arena := a, tree := v }
            if printAsm then .error (.outOfFuel st)
            else bindSt (output_code fuel st) fun st => .ok (0, st)

/-! ### Specification-side notions

Everything below is vocabulary for stating properties of the embedded
program: reachability through branch slots, reference counts of slots,
substring occurrence, and projections out of run results. -/

/-- The literal kinds the canonicalizer deduplicates. -/
def litTok (t : Tok) : Bool := t = T_STR_LITERAL ∨ t = T_REG_EX

/-- The node reached from `root` by following the given child indices
(`[]` is the root slot itself). -/
def occAt (a : Arena) : Option Nat → List Nat → Option Nat
  | root, [] => root
  | root, i :: p =>
    match root with
    | none => none
    | some r =>
      match getNode a r with
      | none => none
      | some n =>
        match n.branches.get? i with
        | none => none
        | some b => occAt a (some b) p

/-- The number of branch slots across the whole heap that hold `j`. -/
def slotRefs (a : Arena) (j : Nat) : Nat :=
  a.foldl (fun acc nd => acc + nd.branches.count j) 0

/-- The number of references to `j`: branch slots plus the root slot. -/
def refsOf (a : Arena) (root : Option Nat) (j : Nat) : Nat :=
  slotRefs a j + (if root = some j then 1 else 0)

/-- Every literal node is a leaf (true of every parser-built heap: the
parser never attaches branches to T_STR_LITERAL/T_REG_EX nodes). -/
def LitLeaves (a : Arena) : Bool :=
  a.all fun nd => !litTok nd.token ∨ nd.branches.isEmpty

/-- Every node is referenced at most once: the heap is a forest and the
part reachable from the root slot is a tree.  True of every parser-built
heap, where sharing only ever arises from the canonicalizer itself. -/
def UniqueRefs (a : Arena) (root : Option Nat) : Bool :=
  (List.range a.length).all fun j => refsOf a root j ≤ 1

/-- Substring occurrence. -/
def listContains (l sub : List Char) : Bool :=
  (List.range (l.length + 1)).any fun i => (l.drop i).take sub.length = sub

/-- The value-state pair of a successful stateful run. -/
def okRun : Except Err (α × St) → Option (α × St)
  | .ok vs => some vs
  | .error _ => none

/-- The value of a successful stateful run. -/
def okVal : Except Err (α × St) → Option α
  | .ok (v, _) => some v
  | .error _ => none

/-- The state of a successful stateful run. -/
def okSt : Except Err (α × St) → Option St
  | .ok (_, st) => some st
  | .error _ => none

/-- The end state of any run, successful or aborted. -/
def endSt : Except Err (α × St) → St → St
  | .ok (_, st), _ => st
  | .error e, _ => e.state

/-- The report message of a run that aborted through report(), if any. -/
def reportMsg : Except Err (α × St) → Option (List Char)
  | .error (.report m _) => some m
  | _ => none

/-- The report2 message of a run that aborted through report2(), if any. -/
def report2Msg : Except Err (α × St) → Option (List Char)
  | .error (.report2 m _) => some m
  | _ => none

/-- True exactly when the run returned from main with EXIT_SUCCESS;
report/report2 call exit(EXIT_FAILURE). -/
def exitedZero : Except Err (Nat × St) → Bool
  | .ok (c, _) => c = 0
  | .error _ => false

/-- The (token, text, branches) view of a heap, for stating concrete
run results compactly. -/
def arenaView (a : Arena) : List (Tok × Option (List Char) × List Nat) :=
  a.map fun n => (n.token, n.text, n.branches)

/-- Parse followed by the canonicalization pass, the front half of the
main pipeline. -/
def parseDedup (fuel : Nat) (inp : List Char) : Option (Option Nat × Arena) :=
  match parseTop fuel inp with
  | .ok (some r, st) => dedupTop fuel st.arena (some r)
  | _ => none

/-- A single-quote character, kept out of string literals. -/
def sq : Char := Char.ofNat 39

/-! ### Universal canonicalizer correctness: vocabulary -/

/-- The (token, text) key of a node, the pair find_literal matches on. -/
def keyOf (a : Arena) (n : Nat) : Option (Tok × Option (List Char)) :=
  (getNode a n).map fun nd => (nd.token, nd.text)

/-- The mutation-relevant record of a node: everything but the
reference count and the emission bookkeeping. -/
def recOf (a : Arena) (n : Nat) : Option (Tok × Option (List Char) × List Nat) :=
  (getNode a n).map fun nd => (nd.token, nd.text, nd.branches)

/-- `m` is the canonical node of key `k`: the one find_literal returns
when searching the original heap from the fixed root. -/
def Canon (a0 : Arena) (root : Option Nat) (k : Tok × Option (List Char)) (m : Nat) : Prop :=
  ∃ F, find_literal_aux F a0 (.inl root) k.2 k.1 = some (some m)

/-- Per-position correspondence between the original heap and a
mid-pass heap: the same positions are populated, keys agree, and each
occupant is the original one or the canonical node of its key. -/
def RelAt (a0 a : Arena) (root : Option Nat) : Option Nat → Option Nat → Prop
  | none, oc => oc = none
  | some n0, oc => ∃ n, oc = some n ∧ keyOf a n = keyOf a0 n0 ∧
      (n = n0 ∨ ∃ k, keyOf a0 n0 = some k ∧ litTok k.1 = true ∧ Canon a0 root k n)

/-- Subtree-wise correspondence from a pair of starting slots. -/
def OptRel (a0 a : Arena) (root : Option Nat) (o0 o : Option Nat) : Prop :=
  ∀ p : List Nat, RelAt a0 a root (occAt a0 o0 p) (occAt a o p)

/-- Heap-wide correspondence from the root slot. -/
def HRel (a0 : Arena) (root : Option Nat) (a : Arena) : Prop :=
  OptRel a0 a root root root

/-- Path extension. -/
def pfx (P q : List Nat) : Prop := ∃ s, q = P ++ s

theorem pfx_refl (P : List Nat) : pfx P P := ⟨[], by simp⟩

theorem pfx_app (P : List Nat) (s : List Nat) : pfx P (P ++ s) := ⟨s, rfl⟩

/-! ### occAt basics -/

theorem occAt_none (a : Arena) (p : List Nat) : occAt a none p = none := by
  cases p <;> rfl

theorem occAt_cons_nog (a : Arena) (r : Nat) (i : Nat) (p : List Nat)
    (h : getNode a r = none) : occAt a (some r) (i :: p) = none := by
  simp [occAt, h]

theorem occAt_cons_nob (a : Arena) (r : Nat) (i : Nat) (p : List Nat) (n : TreeNode)
    (h : getNode a r = some n) (hb : n.branches[i]? = none) :
    occAt a (some r) (i :: p) = none := by
  simp [occAt, h, hb]

theorem occAt_cons_br (a : Arena) (r : Nat) (i : Nat) (p : List Nat) (n : TreeNode) (b : Nat)
    (h : getNode a r = some n) (hb : n.branches[i]? = some b) :
    occAt a (some r) (i :: p) = occAt a (some b) p := by
  simp [occAt, h, hb]

theorem occAt_append (a : Arena) (p q : List Nat) :
    ∀ s, occAt a s (p ++ q) = occAt a (occAt a s p) q := by
  induction p with
  | nil => intro s; rfl
  | cons i p ih =>
    intro s
    cases s with
    | none => rw [occAt_none, occAt_none, occAt_none]
    | some r =>
      rw [List.cons_append]
      cases h : getNode a r with
      | none =>
        rw [occAt_cons_nog a r i (p ++ q) h, occAt_cons_nog a r i p h, occAt_none]
      | some n =>
        cases hb : n.branches[i]? with
        | none =>
          rw [occAt_cons_nob a r i (p ++ q) n h hb, occAt_cons_nob a r i p n h hb,
            occAt_none]
        | some b =>
          rw [occAt_cons_br a r i (p ++ q) n b h hb, occAt_cons_br a r i p n b h hb]
          exact ih (some b)

/-- Traversal frame: if along every proper prefix of `q` the branch
slot the traversal reads is unchanged between heaps `a` and `a'`, the
traversal itself is unchanged. -/
theorem occAt_frame (a a' : Arena) :
    ∀ (q : List Nat) (s : Option Nat),
      (∀ r j m, pfx (r ++ [j]) q → occAt a s r = some m →
        (getNode a' m).map (fun nd => nd.branches[j]?) =
        (getNode a m).map (fun nd => nd.branches[j]?)) →
      occAt a' s q = occAt a s q := by
  intro q
  induction q with
  | nil => intro s h; rfl
  | cons i q ih =>
    intro s h
    cases s with
    | none => rw [occAt_none, occAt_none]
    | some r =>
      have h0 := h [] i r ⟨q, rfl⟩ rfl
      cases hg : getNode a r with
      | none =>
        rw [hg] at h0
        rw [Option.map_none', Option.map_eq_none'] at h0
        rw [occAt_cons_nog a r i q hg, occAt_cons_nog a' r i q h0]
      | some n =>
        rw [hg] at h0
        rw [Option.map_some'] at h0
        rcases Option.map_eq_some'.mp h0 with ⟨n', hg', hbr⟩
        cases hb : n.branches[i]? with
        | none =>
          rw [occAt_cons_nob a r i q n hg hb,
            occAt_cons_nob a' r i q n' hg' (hbr.trans hb)]
        | some b =>
          rw [occAt_cons_br a r i q n b hg hb,
            occAt_cons_br a' r i q n' b hg' (hbr.trans hb)]
          exact ih (some b) (fun r' j m hp ho =>
            h (i :: r') j m (by rcases hp with ⟨s', hs'⟩; exact ⟨s', by simp [hs']⟩)
              (by rw [occAt_cons_br a r i r' n b hg hb]; exact ho))

/-! ### find_literal_aux: equations and characterization -/

theorem find_aux_zero (a : Arena) (pos : Option Nat ⊕ List Nat)
    (text : Option (List Char)) (tok : Tok) :
    find_literal_aux 0 a pos text tok = none := rfl

theorem find_aux_inl_none (F : Nat) (a : Arena) (text : Option (List Char)) (tok : Tok) :
    find_literal_aux (F + 1) a (.inl none) text tok = some none := rfl

theorem find_aux_inl_nog (F : Nat) (a : Arena) (n : Nat) (text : Option (List Char))
    (tok : Tok) (h : getNode a n = none) :
    find_literal_aux (F + 1) a (.inl (some n)) text tok = some none := by
  simp [find_literal_aux, h]

theorem find_aux_inl_hit (F : Nat) (a : Arena) (n : Nat) (text : Option (List Char))
    (tok : Tok) (nd : TreeNode) (h : getNode a n = some nd)
    (hm : nd.token = tok ∧ nd.text = text) :
    find_literal_aux (F + 1) a (.inl (some n)) text tok = some (some n) := by
  simp [find_literal_aux, h, hm]

theorem find_aux_inl_miss (F : Nat) (a : Arena) (n : Nat) (text : Option (List Char))
    (tok : Tok) (nd : TreeNode) (h : getNode a n = some nd)
    (hm : ¬(nd.token = tok ∧ nd.text = text)) :
    find_literal_aux (F + 1) a (.inl (some n)) text tok =
      find_literal_aux F a (.inr nd.branches) text tok := by
  simp [find_literal_aux, h, hm]

theorem find_aux_inr_nil (F : Nat) (a : Arena) (text : Option (List Char)) (tok : Tok) :
    find_literal_aux (F + 1) a (.inr []) text tok = some none := rfl

theorem find_aux_inr_cons (F : Nat) (a : Arena) (b : Nat) (bs : List Nat)
    (text : Option (List Char)) (tok : Tok) :
    find_literal_aux (F + 1) a (.inr (b :: bs)) text tok =
      match find_literal_aux F a (.inl (some b)) text tok with
      | none => none
      | some (some r) => some (some r)
      | some none => find_literal_aux F a (.inr bs) text tok := rfl

/-- Fuel monotonicity of find_literal_aux. -/
theorem find_aux_mono :
    ∀ (F : Nat) (a : Arena) (pos : Option Nat ⊕ List Nat) (text : Option (List Char))
      (tok : Tok) (x : Option Nat),
      find_literal_aux F a pos text tok = some x →
      find_literal_aux (F + 1) a pos text tok = some x := by
  intro F
  induction F with
  | zero => intro a pos text tok x h; rw [find_aux_zero] at h; exact absurd h (by simp)
  | succ F ih =>
    intro a pos text tok x h
    match pos with
    | .inl none => rw [find_aux_inl_none] at h ⊢; exact h
    | .inl (some n) =>
      cases hg : getNode a n with
      | none => rw [find_aux_inl_nog F a n text tok hg] at h
                rw [find_aux_inl_nog (F + 1) a n text tok hg]
                exact h
      | some nd =>
        by_cases hm : nd.token = tok ∧ nd.text = text
        · rw [find_aux_inl_hit F a n text tok nd hg hm] at h
          rw [find_aux_inl_hit (F + 1) a n text tok nd hg hm]
          exact h
        · rw [find_aux_inl_miss F a n text tok nd hg hm] at h
          rw [find_aux_inl_miss (F + 1) a n text tok nd hg hm]
          exact ih a (.inr nd.branches) text tok x h
    | .inr [] => rw [find_aux_inr_nil] at h ⊢; exact h
    | .inr (b :: bs) =>
      rw [find_aux_inr_cons] at h ⊢
      cases hh : find_literal_aux F a (.inl (some b)) text tok with
      | none => rw [hh] at h; exact absurd h (by simp)
      | some o =>
        rw [ih a (.inl (some b)) text tok o hh]
        rw [hh] at h
        cases o with
        | none => exact ih a (.inr bs) text tok x h
        | some r => exact h

/-- Fuel irrelevance: a completed search returns the same answer at any
sufficient fuel. -/
theorem find_aux_le (F F' : Nat) (hle : F ≤ F') (a : Arena)
    (pos : Option Nat ⊕ List Nat) (text : Option (List Char)) (tok : Tok)
    (x : Option Nat) (h : find_literal_aux F a pos text tok = some x) :
    find_literal_aux F' a pos text tok = some x := by
  induction F' with
  | zero =>
    have : F = 0 := Nat.le_zero.mp hle
    subst this; exact h
  | succ F' ih =>
    rcases Nat.lt_or_ge F (F' + 1) with hlt | hge
    · exact find_aux_mono F' a pos text tok x (ih (Nat.lt_succ_iff.mp hlt))
    · have : F = F' + 1 := Nat.le_antisymm hle hge
      subst this; exact h

/-- The canonical node of a key is unique. -/
theorem canon_eq (a0 : Arena) (root : Option Nat) (k : Tok × Option (List Char))
    (m m' : Nat) (h : Canon a0 root k m) (h' : Canon a0 root k m') : m = m' := by
  rcases h with ⟨F, hF⟩
  rcases h' with ⟨F', hF'⟩
  have h1 := find_aux_le F (F + F') (Nat.le_add_right _ _) a0 (.inl root) k.2 k.1 _ hF
  have h2 := find_aux_le F' (F + F') (Nat.le_add_left _ _) a0 (.inl root) k.2 k.1 _ hF'
  rw [h1] at h2
  simpa using h2

/-- A found node matches the query key. -/
theorem find_aux_key :
    ∀ (F : Nat) (a : Arena) (pos : Option Nat ⊕ List Nat) (text : Option (List Char))
      (tok : Tok) (r : Nat),
      find_literal_aux F a pos text tok = some (some r) →
      ∃ nd, getNode a r = some nd ∧ nd.token = tok ∧ nd.text = text := by
  intro F
  induction F with
  | zero => intro a pos text tok r h; rw [find_aux_zero] at h; exact absurd h (by simp)
  | succ F ih =>
    intro a pos text tok r h
    match pos with
    | .inl none => rw [find_aux_inl_none] at h; exact absurd h (by simp)
    | .inl (some n) =>
      cases hg : getNode a n with
      | none => rw [find_aux_inl_nog F a n text tok hg] at h; exact absurd h (by simp)
      | some nd =>
        by_cases hm : nd.token = tok ∧ nd.text = text
        · rw [find_aux_inl_hit F a n text tok nd hg hm] at h
          have : n = r := by simpa using h
          subst this
          exact ⟨nd, hg, hm⟩
        · rw [find_aux_inl_miss F a n text tok nd hg hm] at h
          exact ih a (.inr nd.branches) text tok r h
    | .inr [] => rw [find_aux_inr_nil] at h; exact absurd h (by simp)
    | .inr (b :: bs) =>
      rw [find_aux_inr_cons] at h
      cases hh : find_literal_aux F a (.inl (some b)) text tok with
      | none => rw [hh] at h; exact absurd h (by simp)
      | some o =>
        rw [hh] at h
        cases o with
        | none => exact ih a (.inr bs) text tok r h
        | some r' =>
          have hr : r' = r := by simpa using h
          rw [hr] at hh
          exact ih a (.inl (some b)) text tok r hh

/-- Search-position reachability: which nodes the traversal from a
given position can reach. -/
def ReachesP (a : Arena) : (Option Nat ⊕ List Nat) → List Nat → Nat → Prop
  | .inl o, p, m => occAt a o p = some m
  | .inr bs, p, m => ∃ b, b ∈ bs ∧ occAt a (some b) p = some m

/-- Completeness: a search that terminates empty-handed has visited
every reachable node, so no reachable node matches the key. -/
theorem find_aux_complete :
    ∀ (F : Nat) (a : Arena) (pos : Option Nat ⊕ List Nat) (text : Option (List Char))
      (tok : Tok),
      find_literal_aux F a pos text tok = some none →
      ∀ p m nd, ReachesP a pos p m → getNode a m = some nd →
        ¬(nd.token = tok ∧ nd.text = text) := by
  intro F
  induction F with
  | zero =>
    intro a pos text tok h
    rw [find_aux_zero] at h; exact absurd h (by simp)
  | succ F ih =>
    intro a pos text tok h p m nd hre hg hm
    match pos with
    | .inl none =>
      have : occAt a none p = some m := hre
      rw [occAt_none] at this; exact absurd this (by simp)
    | .inl (some n) =>
      have hocc : occAt a (some n) p = some m := hre
      cases hgn : getNode a n with
      | none =>
        cases p with
        | nil =>
          have : n = m := by simpa [occAt] using hocc
          subst this; rw [hgn] at hg; exact absurd hg (by simp)
        | cons i p' =>
          rw [occAt_cons_nog a n i p' hgn] at hocc; exact absurd hocc (by simp)
      | some nnd =>
        by_cases hmatch : nnd.token = tok ∧ nnd.text = text
        · rw [find_aux_inl_hit F a n text tok nnd hgn hmatch] at h
          exact absurd h (by simp)
        · rw [find_aux_inl_miss F a n text tok nnd hgn hmatch] at h
          cases p with
          | nil =>
            have : n = m := by simpa [occAt] using hocc
            subst this
            rw [hgn] at hg
            have : nnd = nd := by simpa using hg
            subst this
            exact hmatch hm
          | cons i p' =>
            cases hb : nnd.branches[i]? with
            | none => rw [occAt_cons_nob a n i p' nnd hgn hb] at hocc
                      exact absurd hocc (by simp)
            | some b =>
              rw [occAt_cons_br a n i p' nnd b hgn hb] at hocc
              exact ih a (.inr nnd.branches) text tok h p' m nd
                ⟨b, List.getElem?_mem hb, hocc⟩ hg hm
    | .inr [] =>
      rcases hre with ⟨b, hb, _⟩
      exact absurd hb (by simp)
    | .inr (b0 :: bs) =>
      rw [find_aux_inr_cons] at h
      cases hh : find_literal_aux F a (.inl (some b0)) text tok with
      | none => rw [hh] at h; exact absurd h (by simp)
      | some o =>
        rw [hh] at h
        cases o with
        | none =>
          rcases hre with ⟨b, hbmem, hocc⟩
          rcases List.mem_cons.mp hbmem with hb0 | hbs
          · subst hb0
            exact ih a (.inl (some b)) text tok hh p m nd hocc hg hm
          · exact ih a (.inr bs) text tok h p m nd ⟨b, hbs, hocc⟩ hg hm
        | some r => exact absurd h (by simp)

/-! ### Lockstep: find_literal on a related heap returns canonical nodes -/

/-- Result correspondence for the lockstep searches over the original
and a mid-pass heap. -/
def ResRel (a0 : Arena) (root : Option Nat) (text : Option (List Char)) (tok : Tok)
    (o0 o : Option (Option Nat)) : Prop :=
  (o0 = none ∧ o = none) ∨ (o0 = some none ∧ o = some none) ∨
  (∃ r0 r, o0 = some (some r0) ∧ o = some (some r) ∧
    (r = r0 ∨ Canon a0 root (tok, text) r))

theorem length_eq_of_getElem_none (l0 l : List Nat)
    (h : ∀ i : Nat, l0[i]? = none ↔ l[i]? = none) : l0.length = l.length := by
  apply Nat.le_antisymm
  · have := (h l.length).mpr (by simp)
    simpa using this
  · have := (h l0.length).mp (by simp)
    simpa using this

theorem find_lockstep (a0 a : Arena) (root : Option Nat) :
    ∀ (F : Nat) (text : Option (List Char)) (tok : Tok),
      (∀ o0 o, OptRel a0 a root o0 o →
        ResRel a0 root text tok (find_literal_aux F a0 (.inl o0) text tok)
          (find_literal_aux F a (.inl o) text tok)) ∧
      (∀ bs0 bs : List Nat, bs0.length = bs.length →
        (∀ i b0 b : Nat, bs0[i]? = some b0 → bs[i]? = some b →
          OptRel a0 a root (some b0) (some b)) →
        ResRel a0 root text tok (find_literal_aux F a0 (.inr bs0) text tok)
          (find_literal_aux F a (.inr bs) text tok)) := by
  intro F
  induction F with
  | zero =>
    intro text tok
    refine ⟨fun o0 o hrel => ?_, fun bs0 bs hlen hpt => ?_⟩
    · rw [find_aux_zero, find_aux_zero]; exact Or.inl ⟨rfl, rfl⟩
    · rw [find_aux_zero, find_aux_zero]; exact Or.inl ⟨rfl, rfl⟩
  | succ F ih =>
    intro text tok
    constructor
    · intro o0 o hrel
      have h0 := hrel []
      cases o0 with
      | none =>
        have hono : o = none := h0
        subst hono
        rw [find_aux_inl_none, find_aux_inl_none]
        exact Or.inr (Or.inl ⟨rfl, rfl⟩)
      | some n0 =>
        rcases h0 with ⟨n, hn, hkey, hor⟩
        have hosn : o = some n := hn
        subst hosn
        cases hg0 : getNode a0 n0 with
        | none =>
          have hka : keyOf a n = none := by rw [hkey, keyOf, hg0]; rfl
          rw [keyOf] at hka
          have hgn : getNode a n = none := Option.map_eq_none'.mp hka
          rw [find_aux_inl_nog F a0 n0 text tok hg0, find_aux_inl_nog F a n text tok hgn]
          exact Or.inr (Or.inl ⟨rfl, rfl⟩)
        | some nd0 =>
          have hka : keyOf a n = some (nd0.token, nd0.text) := by
            rw [hkey, keyOf, hg0]; rfl
          rw [keyOf] at hka
          rcases Option.map_eq_some'.mp hka with ⟨nd, hgn, hnd⟩
          have htok : nd.token = nd0.token := by
            have := congrArg Prod.fst hnd; simpa using this
          have htxt : nd.text = nd0.text := by
            have := congrArg Prod.snd hnd; simpa using this
          by_cases hm : nd0.token = tok ∧ nd0.text = text
          · rw [find_aux_inl_hit F a0 n0 text tok nd0 hg0 hm]
            rw [find_aux_inl_hit F a n text tok nd hgn ⟨htok.trans hm.1, htxt.trans hm.2⟩]
            refine Or.inr (Or.inr ⟨n0, n, rfl, rfl, ?_⟩)
            rcases hor with hnn | ⟨k, hk, hlit, hc⟩
            · exact Or.inl hnn
            · refine Or.inr ?_
              have hkk : k = (tok, text) := by
                rw [keyOf, hg0] at hk
                have h2 : (nd0.token, nd0.text) = k := by simpa using hk
                rw [← h2, hm.1, hm.2]
              rw [← hkk]
              exact hc
          · rw [find_aux_inl_miss F a0 n0 text tok nd0 hg0 hm]
            rw [find_aux_inl_miss F a n text tok nd hgn (by rw [htok, htxt]; exact hm)]
            refine (ih text tok).2 nd0.branches nd.branches ?_ ?_
            · apply length_eq_of_getElem_none
              intro i
              constructor
              · intro hnone
                have hi := hrel [i]
                rw [occAt_cons_nob a0 n0 i [] nd0 hg0 hnone] at hi
                have hoccn : occAt a (some n) [i] = none := hi
                cases hb : nd.branches[i]? with
                | none => rfl
                | some b =>
                  rw [occAt_cons_br a n i [] nd b hgn hb] at hoccn
                  exact absurd hoccn (by simp [occAt])
              · intro hnone
                cases hb0 : nd0.branches[i]? with
                | none => rfl
                | some b0 =>
                  have hi := hrel [i]
                  rw [occAt_cons_br a0 n0 i [] nd0 b0 hg0 hb0] at hi
                  rcases hi with ⟨n', hn', _⟩
                  rw [occAt_cons_nob a n i [] nd hgn hnone] at hn'
                  exact absurd hn' (by simp)
            · intro i b0 b hb0 hb
              intro p
              have hi := hrel (i :: p)
              rw [occAt_cons_br a0 n0 i p nd0 b0 hg0 hb0] at hi
              rw [occAt_cons_br a n i p nd b hgn hb] at hi
              exact hi
    · intro bs0 bs hlen hpt
      cases bs0 with
      | nil =>
        cases bs with
        | nil =>
          rw [find_aux_inr_nil, find_aux_inr_nil]
          exact Or.inr (Or.inl ⟨rfl, rfl⟩)
        | cons b bs' => exact absurd hlen (by simp)
      | cons b0 bs0' =>
        cases bs with
        | nil => exact absurd hlen (by simp)
        | cons b bs' =>
          have hhead : OptRel a0 a root (some b0) (some b) :=
            hpt 0 b0 b (by simp) (by simp)
          have hres := (ih text tok).1 (some b0) (some b) hhead
          rw [find_aux_inr_cons, find_aux_inr_cons]
          rcases hres with ⟨h1, h2⟩ | ⟨h1, h2⟩ | ⟨r0, r, h1, h2, hor⟩
          · rw [h1, h2]
            exact Or.inl ⟨rfl, rfl⟩
          · rw [h1, h2]
            refine (ih text tok).2 bs0' bs' (by simpa using hlen) ?_
            intro i c0 c hc0 hc
            exact hpt (i + 1) c0 c (by simpa using hc0) (by simpa using hc)
          · rw [h1, h2]
            exact Or.inr (Or.inr ⟨r0, r, rfl, rfl, hor⟩)

/-- On any heap related to the original, a completed find_literal
returns the canonical node of the queried key. -/
theorem find_stable (a0 a : Arena) (root : Option Nat) (h : HRel a0 root a)
    (F : Nat) (text : Option (List Char)) (tok : Tok) (m : Nat)
    (hf : find_literal_aux F a (.inl root) text tok = some (some m)) :
    Canon a0 root (tok, text) m := by
  have hres := (find_lockstep a0 a root F text tok).1 root root h
  rw [hf] at hres
  rcases hres with ⟨_, h2⟩ | ⟨_, h2⟩ | ⟨r0, r, h1, h2, hor⟩
  · exact absurd h2 (by simp)
  · exact absurd h2 (by simp)
  · have hrm : m = r := by simpa using h2
    rcases hor with hrr | hc
    · rw [hrm, hrr]
      exact ⟨F, h1⟩
    · rw [hrm]
      exact hc

/-- On any heap related to the original, find_literal never reports
"no match" when a reachable node carries the queried key. -/
theorem find_not_none (a : Arena) (root : Option Nat) (F : Nat)
    (text : Option (List Char)) (tok : Tok) (P : List Nat) (n : Nat) (nd : TreeNode)
    (hocc : occAt a root P = some n) (hg : getNode a n = some nd)
    (htok : nd.token = tok) (htxt : nd.text = text) :
    find_literal_aux F a (.inl root) text tok ≠ some none := by
  intro hf
  exact find_aux_complete F a (.inl root) text tok hf P n nd hocc hg ⟨htok, htxt⟩

/-! ### Reference counting: a uniquely-referenced heap is a tree -/

theorem foldl_add_count (j : Nat) :
    ∀ (l : Arena) (acc : Nat),
      l.foldl (fun acc nd => acc + nd.branches.count j) acc =
        acc + (l.map (fun nd => nd.branches.count j)).sum := by
  intro l
  induction l with
  | nil => intro acc; simp
  | cons hd tl ih =>
    intro acc
    simp only [List.foldl_cons, List.map_cons, List.sum_cons]
    rw [ih]
    omega

theorem slotRefs_eq_sum (a : Arena) (j : Nat) :
    slotRefs a j = (a.map (fun nd => nd.branches.count j)).sum := by
  rw [slotRefs, foldl_add_count]
  omega

theorem oneSlot (x : Nat) :
    ∀ (a : Arena) (y : Nat) (nd : TreeNode), a[y]? = some nd →
      nd.branches.count x ≤ (a.map (fun nd => nd.branches.count x)).sum := by
  intro a
  induction a with
  | nil => intro y nd h; simp at h
  | cons hd tl ih =>
    intro y nd h
    cases y with
    | zero =>
      have : hd = nd := by simpa using h
      subst this
      simp only [List.map_cons, List.sum_cons]
      omega
    | succ y' =>
      have h' : tl[y']? = some nd := by simpa using h
      have := ih y' nd h'
      simp only [List.map_cons, List.sum_cons]
      omega

theorem twoSlots (x : Nat) :
    ∀ (a : Arena) (y1 y2 : Nat) (nd1 nd2 : TreeNode), y1 ≠ y2 →
      a[y1]? = some nd1 → a[y2]? = some nd2 →
      nd1.branches.count x + nd2.branches.count x ≤
        (a.map (fun nd => nd.branches.count x)).sum := by
  intro a
  induction a with
  | nil => intro y1 y2 nd1 nd2 hne h1 h2; simp at h1
  | cons hd tl ih =>
    intro y1 y2 nd1 nd2 hne h1 h2
    cases y1 with
    | zero =>
      cases y2 with
      | zero => exact absurd rfl hne
      | succ y2' =>
        have e1 : hd = nd1 := by simpa using h1
        subst e1
        have h2' : tl[y2']? = some nd2 := by simpa using h2
        have := oneSlot x tl y2' nd2 h2'
        simp only [List.map_cons, List.sum_cons]
        omega
    | succ y1' =>
      cases y2 with
      | zero =>
        have e2 : hd = nd2 := by simpa using h2
        subst e2
        have h1' : tl[y1']? = some nd1 := by simpa using h1
        have := oneSlot x tl y1' nd1 h1'
        simp only [List.map_cons, List.sum_cons]
        omega
      | succ y2' =>
        have h1' : tl[y1']? = some nd1 := by simpa using h1
        have h2' : tl[y2']? = some nd2 := by simpa using h2
        have := ih y1' y2' nd1 nd2 (by omega) h1' h2'
        simp only [List.map_cons, List.sum_cons]
        omega

theorem count_two_of_two_get (x : Nat) :
    ∀ (l : List Nat) (i j : Nat), i ≠ j → l[i]? = some x → l[j]? = some x →
      2 ≤ l.count x := by
  intro l
  induction l with
  | nil => intro i j hne h1 h2; simp at h1
  | cons hd tl ih =>
    intro i j hne h1 h2
    cases i with
    | zero =>
      cases j with
      | zero => exact absurd rfl hne
      | succ j' =>
        have e1 : hd = x := by simpa using h1
        have h2' : tl[j']? = some x := by simpa using h2
        have hmem : x ∈ tl := List.getElem?_mem h2'
        have hc1 : 1 ≤ tl.count x := List.count_pos_iff.mpr hmem
        rw [e1, List.count_cons_self]
        omega
    | succ i' =>
      cases j with
      | zero =>
        have e2 : hd = x := by simpa using h2
        have h1' : tl[i']? = some x := by simpa using h1
        have hmem : x ∈ tl := List.getElem?_mem h1'
        have hc1 : 1 ≤ tl.count x := List.count_pos_iff.mpr hmem
        rw [e2, List.count_cons_self]
        omega
      | succ j' =>
        have h1' : tl[i']? = some x := by simpa using h1
        have h2' : tl[j']? = some x := by simpa using h2
        have := ih i' j' (by omega) h1' h2'
        rw [List.count_cons]
        omega

theorem count_one_of_get (x : Nat) (l : List Nat) (i : Nat) (h : l[i]? = some x) :
    1 ≤ l.count x :=
  List.count_pos_iff.mpr (List.getElem?_mem h)

theorem uniqueRefs_le (a : Arena) (root : Option Nat) (h : UniqueRefs a root = true)
    (x : Nat) (hx : x < a.length) : refsOf a root x ≤ 1 := by
  rw [UniqueRefs, List.all_eq_true] at h
  have := h x (List.mem_range.mpr hx)
  simpa using this

theorem occAt_concat_some (a : Arena) (s : Option Nat) (p : List Nat) (i : Nat) (x : Nat)
    (h : occAt a s (p ++ [i]) = some x) :
    ∃ y ndy, occAt a s p = some y ∧ getNode a y = some ndy ∧ ndy.branches[i]? = some x := by
  rw [occAt_append] at h
  cases ho : occAt a s p with
  | none => rw [ho, occAt_none] at h; exact absurd h (by simp)
  | some y =>
    rw [ho] at h
    cases hg : getNode a y with
    | none => rw [occAt_cons_nog a y i [] hg] at h; exact absurd h (by simp)
    | some ndy =>
      cases hb : ndy.branches[i]? with
      | none => rw [occAt_cons_nob a y i [] ndy hg hb] at h; exact absurd h (by simp)
      | some b =>
        rw [occAt_cons_br a y i [] ndy b hg hb] at h
        have hbx : b = x := by simpa [occAt] using h
        exact ⟨y, ndy, rfl, hg, by rw [hb, hbx]⟩

theorem getNode_lt (a : Arena) (y : Nat) (nd : TreeNode) (h : getNode a y = some nd) :
    y < a.length := by
  rw [getNode] at h
  rcases List.get?_eq_some.mp h with ⟨hlt, _⟩
  exact hlt

/-- In a uniquely-referenced heap, each in-range node is reached by at
most one path. -/
theorem path_unique (a : Arena) (root : Option Nat) (hu : UniqueRefs a root = true) :
    ∀ (N : Nat) (p q : List Nat) (x : Nat), p.length + q.length ≤ N → x < a.length →
      occAt a root p = some x → occAt a root q = some x → p = q := by
  intro N
  induction N with
  | zero =>
    intro p q x hlen hx hp hq
    have hp0 : p = [] := List.eq_nil_of_length_eq_zero (by omega)
    have hq0 : q = [] := List.eq_nil_of_length_eq_zero (by omega)
    rw [hp0, hq0]
  | succ N ih =>
    intro p q x hlen hx hp hq
    rcases List.eq_nil_or_concat p with hpn | ⟨p', i, hpc⟩
    · rcases List.eq_nil_or_concat q with hqn | ⟨q', j, hqc⟩
      · rw [hpn, hqn]
      · exfalso
        subst hpn; subst hqc
        simp only [List.concat_eq_append] at hq
        have hroot : root = some x := hp
        rcases occAt_concat_some a root q' j x hq with ⟨y, ndy, hoy, hgy, hby⟩
        have hy : y < a.length := getNode_lt a y ndy hgy
        have hcnt : 1 ≤ ndy.branches.count x := count_one_of_get x ndy.branches j hby
        have hslot : ndy.branches.count x ≤ slotRefs a x := by
          rw [slotRefs_eq_sum]
          exact oneSlot x a y ndy (by rw [getNode, List.get?_eq_getElem?] at hgy; exact hgy)
        have : refsOf a root x ≥ 2 := by
          rw [refsOf, if_pos hroot]
          omega
        have := uniqueRefs_le a root hu x hx
        omega
    · rcases List.eq_nil_or_concat q with hqn | ⟨q', j, hqc⟩
      · exfalso
        subst hqn; subst hpc
        simp only [List.concat_eq_append] at hp
        have hroot : root = some x := hq
        rcases occAt_concat_some a root p' i x hp with ⟨y, ndy, hoy, hgy, hby⟩
        have hy : y < a.length := getNode_lt a y ndy hgy
        have hcnt : 1 ≤ ndy.branches.count x := count_one_of_get x ndy.branches i hby
        have hslot : ndy.branches.count x ≤ slotRefs a x := by
          rw [slotRefs_eq_sum]
          exact oneSlot x a y ndy (by rw [getNode, List.get?_eq_getElem?] at hgy; exact hgy)
        have : refsOf a root x ≥ 2 := by
          rw [refsOf, if_pos hroot]
          omega
        have := uniqueRefs_le a root hu x hx
        omega
      · subst hpc; subst hqc
        simp only [List.concat_eq_append] at hp hq hlen ⊢
        rcases occAt_concat_some a root p' i x hp with ⟨y1, nd1, ho1, hg1, hb1⟩
        rcases occAt_concat_some a root q' j x hq with ⟨y2, nd2, ho2, hg2, hb2⟩
        by_cases hyy : y1 = y2
        · subst hyy
          have hnd : nd1 = nd2 := by
            rw [hg1] at hg2; exact Option.some.inj hg2
          subst hnd
          by_cases hij : i = j
          · subst hij
            have hy1 : y1 < a.length := getNode_lt a y1 nd1 hg1
            have hpq : p' = q' := by
              apply ih p' q' y1 _ hy1 ho1 ho2
              simp only [List.length_append, List.length_cons, List.length_nil] at hlen
              omega
            rw [hpq]
          · exfalso
            have hcnt : 2 ≤ nd1.branches.count x :=
              count_two_of_two_get x nd1.branches i j hij hb1 hb2
            have hslot : nd1.branches.count x ≤ slotRefs a x := by
              rw [slotRefs_eq_sum]
              exact oneSlot x a y1 nd1 (by rw [getNode, List.get?_eq_getElem?] at hg1; exact hg1)
            have hro : refsOf a root x ≥ 2 := by
              rw [refsOf]
              split <;> omega
            have := uniqueRefs_le a root hu x hx
            omega
        · exfalso
          have hcnt1 : 1 ≤ nd1.branches.count x := count_one_of_get x nd1.branches i hb1
          have hcnt2 : 1 ≤ nd2.branches.count x := count_one_of_get x nd2.branches j hb2
          have hslot : nd1.branches.count x + nd2.branches.count x ≤ slotRefs a x := by
            rw [slotRefs_eq_sum]
            exact twoSlots x a y1 y2 nd1 nd2 hyy
              (by rw [getNode, List.get?_eq_getElem?] at hg1; exact hg1)
              (by rw [getNode, List.get?_eq_getElem?] at hg2; exact hg2)
          have hro : refsOf a root x ≥ 2 := by
            rw [refsOf]
            split <;> omega
          have := uniqueRefs_le a root hu x hx
          omega

/-! ### Heap mutations: frame facts -/

theorem getNode_modify_other (a : Arena) (x y : Nat) (f : TreeNode → TreeNode)
    (h : y ≠ x) : getNode (modifyNode a x f) y = getNode a y := by
  rw [modifyNode]
  cases hg : a.get? x with
  | none => rfl
  | some nd => exact List.get?_set_ne (f nd) a (fun he => h he.symm)

theorem getNode_modify_self (a : Arena) (x : Nat) (f : TreeNode → TreeNode)
    (nd : TreeNode) (h : getNode a x = some nd) :
    getNode (modifyNode a x f) x = some (f nd) := by
  rw [modifyNode, getNode] at *
  rw [h]
  exact List.get?_set_eq_of_lt (f nd) (by rcases List.get?_eq_some.mp h with ⟨hlt, _⟩; exact hlt)

theorem modify_length (a : Arena) (x : Nat) (f : TreeNode → TreeNode) :
    (modifyNode a x f).length = a.length := by
  rw [modifyNode]
  cases a.get? x <;> simp

/-- Heaps with identical branch structure have identical traversals. -/
theorem occAt_congr (a a' : Arena)
    (h : ∀ y, (getNode a' y).map (fun nd => nd.branches) =
              (getNode a y).map (fun nd => nd.branches)) :
    ∀ (p : List Nat) (s : Option Nat), occAt a' s p = occAt a s p := by
  intro p
  induction p with
  | nil => intro s; rfl
  | cons i p ih =>
    intro s
    cases s with
    | none => rw [occAt_none, occAt_none]
    | some r =>
      have h0 := h r
      cases hg : getNode a r with
      | none =>
        rw [hg] at h0
        rw [Option.map_none', Option.map_eq_none'] at h0
        rw [occAt_cons_nog a r i p hg, occAt_cons_nog a' r i p h0]
      | some n =>
        rw [hg] at h0
        rw [Option.map_some'] at h0
        rcases Option.map_eq_some'.mp h0 with ⟨n', hg', hbr⟩
        cases hb : n.branches[i]? with
        | none =>
          rw [occAt_cons_nob a r i p n hg hb,
            occAt_cons_nob a' r i p n' hg' (by rw [hbr, hb])]
        | some b =>
          rw [occAt_cons_br a r i p n b hg hb,
            occAt_cons_br a' r i p n' b hg' (by rw [hbr, hb])]
          exact ih (some b)

/-- Bumping a reference count changes no key, record, or traversal. -/
theorem bump_facts (a : Arena) (m : Nat) :
    (∀ y, keyOf (modifyNode a m (fun x => { x with refCnt := x.refCnt + 1 })) y = keyOf a y) ∧
    (∀ y, recOf (modifyNode a m (fun x => { x with refCnt := x.refCnt + 1 })) y = recOf a y) ∧
    (∀ (p : List Nat) (s : Option Nat),
      occAt (modifyNode a m (fun x => { x with refCnt := x.refCnt + 1 })) s p = occAt a s p) := by
  set f : TreeNode → TreeNode := fun x => { x with refCnt := x.refCnt + 1 } with hf
  have hget : ∀ y, (getNode (modifyNode a m f) y).map (fun nd => (nd.token, nd.text, nd.branches)) =
      (getNode a y).map (fun nd => (nd.token, nd.text, nd.branches)) := by
    intro y
    by_cases hy : y = m
    · subst hy
      cases hg : getNode a y with
      | none =>
        have hg2 : getNode (modifyNode a y f) y = none := by
          rw [modifyNode]
          rw [getNode] at hg
          rw [hg]
          rw [getNode]
          exact hg
        rw [hg2]
      | some nd =>
        rw [getNode_modify_self a y f nd hg]
        rfl
    · rw [getNode_modify_other a m y f hy]
  refine ⟨?_, ?_, ?_⟩
  · intro y
    have h3 := hget y
    rw [keyOf, keyOf]
    cases h1 : getNode (modifyNode a m f) y <;> cases h2 : getNode a y <;>
      rw [h1, h2] at h3 <;> simp_all
  · intro y
    have h3 := hget y
    rw [recOf, recOf]
    cases h1 : getNode (modifyNode a m f) y <;> cases h2 : getNode a y <;>
      rw [h1, h2] at h3 <;> simp_all
  · apply occAt_congr
    intro y
    have h3 := hget y
    cases h1 : getNode (modifyNode a m f) y <;> cases h2 : getNode a y <;>
      rw [h1, h2] at h3 <;> simp_all

/-- Setting a node whose new record is leaf-safe keeps every literal a
leaf. -/
theorem litLeaves_set_true (a : Arena) (m : Nat) (nd' : TreeNode)
    (hsafe : litTok nd'.token = false ∨ nd'.branches = [])
    (h : LitLeaves a = true) : LitLeaves (a.set m nd') = true := by
  rw [LitLeaves, List.all_eq_true] at *
  intro x hx
  rcases List.mem_or_eq_of_mem_set hx with hmem | heq
  · exact h x hmem
  · subst heq
    rcases hsafe with h1 | h1
    · simp [h1]
    · simp [h1]

/-- A record-modification that keeps token and branches keeps every
literal a leaf. -/
theorem litLeaves_modify_keep (a : Arena) (m : Nat) (f : TreeNode → TreeNode)
    (hkeep : ∀ nd, (f nd).token = nd.token ∧ (f nd).branches = nd.branches)
    (h : LitLeaves a = true) : LitLeaves (modifyNode a m f) = true := by
  rw [modifyNode]
  cases hg : a.get? m with
  | none => exact h
  | some nd =>
    rw [LitLeaves, List.all_eq_true] at *
    intro x hx
    rcases List.mem_or_eq_of_mem_set hx with hmem | heq
    · exact h x hmem
    · subst heq
      have h2 := h nd (List.get?_mem hg)
      rw [Bool.decide_or] at h2 ⊢
      rw [(hkeep nd).1, (hkeep nd).2]
      exact h2

/-- delete_node on a leaf: every other node is untouched, and the leaf
itself keeps empty branches; on free its token is cleared to T_EOS. -/
theorem delete_leaf_facts (F : Nat) (a : Arena) (n : Nat) (nd : TreeNode)
    (hg : getNode a n = some nd) (hbr : nd.branches = []) (a2 : Arena)
    (hdel : delete_node F a n = some a2) :
    (∀ y, y ≠ n → getNode a2 y = getNode a y) ∧
    (∃ nd', getNode a2 n = some nd' ∧ nd'.branches = [] ∧
      (nd'.token = nd.token ∧ nd'.text = nd.text ∨ nd'.token = T_EOS ∧ nd'.text = none)) ∧
    a2.length = a.length ∧ (LitLeaves a = true → LitLeaves a2 = true) := by
  rw [delete_node] at hdel
  cases F with
  | zero =>
    simp only [delete_aux] at hdel
    exact absurd hdel (by simp)
  | succ F =>
    simp only [delete_aux, hg] at hdel
    have hn : n < a.length := by
      rcases List.get?_eq_some.mp hg with ⟨hlt, _⟩; exact hlt
    by_cases hrc : nd.refCnt - 1 > 0
    · rw [if_pos hrc] at hdel
      cases F with
      | zero =>
        simp only [delete_aux] at hdel
        exact absurd hdel (by simp)
      | succ F =>
        simp only [delete_aux] at hdel
        have ha2 : a2 = setNode a n { nd with refCnt := nd.refCnt - 1 } :=
          (Option.some.inj hdel).symm
        subst ha2
        refine ⟨?_, ?_, ?_, ?_⟩
        · intro y hy
          rw [setNode, getNode, getNode]
          exact List.get?_set_ne _ a (fun he => hy he.symm)
        · refine ⟨{ nd with refCnt := nd.refCnt - 1 }, ?_, hbr, Or.inl ⟨rfl, rfl⟩⟩
          rw [setNode, getNode]
          exact List.get?_set_eq_of_lt _ hn
        · rw [setNode]; simp
        · intro hll
          rw [setNode]
          exact litLeaves_set_true a n _ (Or.inr hbr) hll
    · rw [if_neg hrc] at hdel
      rw [hbr] at hdel
      simp only [List.reverse_nil, List.nil_append] at hdel
      cases F with
      | zero =>
        simp only [delete_aux] at hdel
        exact absurd hdel (by simp)
      | succ F =>
        simp only [delete_aux] at hdel
        set ndc : TreeNode :=
          { nd with refCnt := nd.refCnt - 1, branchesIx := -1, id := -1,
                    nodeTypeEnum := none, exportIdent := none, branches := [],
                    text := none, token := T_EOS } with hndc
        have ha2 : a2 = setNode a n ndc := (Option.some.inj hdel).symm
        subst ha2
        refine ⟨?_, ?_, ?_, ?_⟩
        · intro y hy
          rw [setNode, getNode, getNode]
          exact List.get?_set_ne _ a (fun he => hy he.symm)
        · refine ⟨ndc, ?_, rfl, Or.inr ⟨rfl, rfl⟩⟩
          rw [setNode, getNode]
          exact List.get?_set_eq_of_lt _ hn
        · rw [setNode]; simp
        · intro hll
          rw [setNode]
          exact litLeaves_set_true a n _ (Or.inr rfl) hll

/-! ### Bridge facts and the canonicalization invariant -/

theorem litTok_true_iff (t : Tok) :
    litTok t = true ↔ (t = T_STR_LITERAL ∨ t = T_REG_EX) := by
  simp [litTok]

theorem litTok_false_iff (t : Tok) :
    litTok t = false ↔ ¬(t = T_STR_LITERAL ∨ t = T_REG_EX) := by
  simp [litTok]

theorem litLeaves_branches (a : Arena) (h : LitLeaves a = true) (x : Nat) (nd : TreeNode)
    (hg : getNode a x = some nd) (hl : litTok nd.token = true) : nd.branches = [] := by
  rw [LitLeaves, List.all_eq_true] at h
  have := h nd (List.get?_mem hg)
  rw [Bool.decide_or] at this
  rcases Bool.or_eq_true_iff.mp this with h1 | h1
  · rw [hl] at h1; exact absurd h1 (by simp)
  · simpa using List.isEmpty_iff.mp (by simpa using h1)

theorem modify_eq_set (a : Arena) (x : Nat) (f : TreeNode → TreeNode) (nd : TreeNode)
    (h : getNode a x = some nd) : modifyNode a x f = a.set x (f nd) := by
  rw [modifyNode, getNode] at *
  rw [h]

theorem canon_key (a0 : Arena) (root : Option Nat) (k : Tok × Option (List Char)) (m : Nat)
    (h : Canon a0 root k m) : keyOf a0 m = some k := by
  rcases h with ⟨F, hF⟩
  rcases find_aux_key F a0 (.inl root) k.2 k.1 m hF with ⟨nd, hg, ht, hx⟩
  rw [keyOf, hg, Option.map_some']
  rw [ht, hx]

theorem pfx_extend (P q : List Nat) (i : Nat) (h : pfx (P ++ [i]) q) : pfx P q := by
  rcases h with ⟨s, hs⟩
  exact ⟨[i] ++ s, by simp [hs]⟩

theorem pfx_length (P q : List Nat) (h : pfx P q) : P.length ≤ q.length := by
  rcases h with ⟨s, hs⟩
  rw [hs]; simp

theorem not_pfx_snoc_self (P : List Nat) (i : Nat) : ¬ pfx (P ++ [i]) P := by
  intro h
  have := pfx_length _ _ h
  simp at this

theorem not_pfx_snoc_of_ne (P : List Nat) (i j : Nat) (hne : j ≠ i) :
    ¬ pfx (P ++ [i]) (P ++ j :: s) := by
  intro h
  rcases h with ⟨t, ht⟩
  rw [List.append_assoc] at ht
  have h2 := List.append_inj_right ht rfl
  simp at h2
  exact hne h2.1

/-- A strict extension of a path. -/
def pfxS (P q : List Nat) : Prop := ∃ j s, q = P ++ j :: s

theorem pfxS_pfx (P q : List Nat) (h : pfxS P q) : pfx P q := by
  rcases h with ⟨j, s, hs⟩
  exact ⟨j :: s, hs⟩

theorem not_pfxS_self (P : List Nat) : ¬ pfxS P P := by
  intro h
  rcases h with ⟨j, s, hs⟩
  have hlen := congrArg List.length hs
  simp only [List.length_append, List.length_cons] at hlen
  omega

theorem pfx_cases (P q : List Nat) (h : pfx P q) : q = P ∨ pfxS P q := by
  rcases h with ⟨s, hs⟩
  cases s with
  | nil => left; rw [hs]; simp
  | cons j s' => right; exact ⟨j, s', hs⟩

theorem occAt_snoc (a : Arena) (s : Option Nat) (P : List Nat) (i : Nat) (n b : Nat)
    (nd : TreeNode) (hP : occAt a s P = some n) (hg : getNode a n = some nd)
    (hb : nd.branches[i]? = some b) : occAt a s (P ++ [i]) = some b := by
  rw [occAt_append, hP, occAt_cons_br a n i [] nd b hg hb]
  rfl

/-- The invariant carried across the canonicalization pass. -/
def Inv (a0 : Arena) (root : Option Nat) (a : Arena) : Prop :=
  HRel a0 root a ∧ LitLeaves a = true ∧ a.length = a0.length

/-- A node reached at two positions of a related heap that is neither
canonical for its key nor of literal kind at that key sits at one
position only. -/
theorem occ_unique (a0 : Arena) (root : Option Nat) (H2 : UniqueRefs a0 root = true)
    (a : Arena) (hrel : HRel a0 root a) (hlen : a.length = a0.length)
    (P q : List Nat) (n : Nat) (k : Tok × Option (List Char))
    (hP : occAt a root P = some n) (hq : occAt a root q = some n)
    (hk : keyOf a n = some k)
    (hside : litTok k.1 = false ∨ ¬ Canon a0 root k n) : q = P := by
  have horig : ∀ r, occAt a root r = some n → occAt a0 root r = some n := by
    intro r hr
    have hrr := hrel r
    cases h0 : occAt a0 root r with
    | none =>
      rw [h0] at hrr
      have : occAt a root r = none := hrr
      rw [hr] at this
      exact absurd this (by simp)
    | some n0 =>
      rw [h0] at hrr
      rcases hrr with ⟨n', hn', hkey, hor⟩
      rw [hr] at hn'
      have hnn : n' = n := by simpa using hn'.symm
      subst hnn
      rcases hor with h1 | ⟨k', hk', hlit, hc⟩
      · subst h1; rfl
      · exfalso
        have hkk : k' = k := by
          rw [hkey, hk'] at hk
          exact Option.some.inj hk
        subst hkk
        rcases hside with h2 | h2
        · rw [hlit] at h2; exact absurd h2 (by simp)
        · exact h2 hc
  have hP0 := horig P hP
  have hq0 := horig q hq
  have hn : n < a0.length := by
    rw [keyOf] at hk
    rcases Option.map_eq_some'.mp hk with ⟨nd, hg, _⟩
    rw [← hlen]
    exact getNode_lt a n nd hg
  exact path_unique a0 root H2 (q.length + P.length) q P n (Nat.le_refl _) hn hq0 hP0

/-- Postcondition of the canonicalizer's node form at ghost path P. -/
def PostInl (a0 : Arena) (root : Option Nat) (a : Arena) (P : List Nat) (n : Nat)
    (res : Option Nat × Arena) : Prop :=
  ∃ v a2, res = (some v, a2) ∧
    (∀ q, ¬ pfx P q → RelAt a0 a2 root (occAt a0 root q) (occAt a2 root q)) ∧
    (∀ s, RelAt a0 a2 root (occAt a0 root (P ++ s)) (occAt a2 (some v) s)) ∧
    keyOf a2 v = keyOf a n ∧
    (v = n ∨ ∃ k, keyOf a n = some k ∧ litTok k.1 = true ∧ Canon a0 root k v) ∧
    (∀ q, ¬ pfx P q → occAt a2 root q = occAt a root q) ∧
    (∀ q m, ¬ pfx P q → occAt a root q = some m → recOf a2 m = recOf a m) ∧
    (∀ s m nd, occAt a2 (some v) s = some m → getNode a2 m = some nd →
      litTok nd.token = true → Canon a0 root (nd.token, nd.text) m) ∧
    LitLeaves a2 = true ∧ a2.length = a.length

/-- Postcondition of the canonicalizer's branch loop at ghost path P. -/
def PostInr (a0 : Arena) (root : Option Nat) (a : Arena) (P : List Nat) (n : Nat)
    (res : Option Nat × Arena) : Prop :=
  ∃ a2, res = (some n, a2) ∧
    HRel a0 root a2 ∧ LitLeaves a2 = true ∧ a2.length = a.length ∧
    (∀ q, ¬ pfxS P q → occAt a2 root q = occAt a root q) ∧
    (∀ q m, ¬ pfxS P q → occAt a root q = some m →
      keyOf a2 m = keyOf a m ∧ (q ≠ P → recOf a2 m = recOf a m)) ∧
    (∀ j s m nd, occAt a2 root (P ++ j :: s) = some m → getNode a2 m = some nd →
      litTok nd.token = true → Canon a0 root (nd.token, nd.text) m)

/-! ### dedup_aux equations -/

theorem dedup_zero (a : Arena) (root : Option Nat) (X : Option Nat ⊕ Nat × Nat) :
    dedup_aux 0 a root X = none := rfl

theorem dedup_inl_none (F : Nat) (a : Arena) (root : Option Nat) :
    dedup_aux (F + 1) a root (.inl none) = some (none, a) := rfl

theorem dedup_inl_nog (F : Nat) (a : Arena) (root : Option Nat) (n : Nat)
    (h : getNode a n = none) :
    dedup_aux (F + 1) a root (.inl (some n)) = some (some n, a) := by
  simp [dedup_aux, h]

theorem dedup_inl_nonlit (F : Nat) (a : Arena) (root : Option Nat) (n : Nat)
    (nd : TreeNode) (h : getNode a n = some nd)
    (hnl : ¬(nd.token = T_STR_LITERAL ∨ nd.token = T_REG_EX)) :
    dedup_aux (F + 1) a root (.inl (some n)) = dedup_aux F a root (.inr (n, 0)) := by
  simp [dedup_aux, h, hnl]

theorem dedup_inl_lit_nofind (F : Nat) (a : Arena) (root : Option Nat) (n : Nat)
    (nd : TreeNode) (h : getNode a n = some nd)
    (hl : nd.token = T_STR_LITERAL ∨ nd.token = T_REG_EX)
    (hf : find_literal F a root n nd.text nd.token = none) :
    dedup_aux (F + 1) a root (.inl (some n)) = none := by
  simp [dedup_aux, h, hl, hf]

theorem dedup_inl_lit_nomatch (F : Nat) (a : Arena) (root : Option Nat) (n : Nat)
    (nd : TreeNode) (h : getNode a n = some nd)
    (hl : nd.token = T_STR_LITERAL ∨ nd.token = T_REG_EX)
    (hf : find_literal F a root n nd.text nd.token = some none) :
    dedup_aux (F + 1) a root (.inl (some n)) = dedup_aux F a root (.inr (n, 0)) := by
  simp [dedup_aux, h, hl, hf]

theorem dedup_inl_lit_found (F : Nat) (a : Arena) (root : Option Nat) (n m : Nat)
    (nd : TreeNode) (h : getNode a n = some nd)
    (hl : nd.token = T_STR_LITERAL ∨ nd.token = T_REG_EX)
    (hf : find_literal F a root n nd.text nd.token = some (some m)) :
    dedup_aux (F + 1) a root (.inl (some n)) =
      (if n ≠ m then
        match delete_node F (modifyNode a m (fun x => { x with refCnt := x.refCnt + 1 })) n with
        | some a2 => some (some m, a2)
        | none => none
      else some (some m, modifyNode a m (fun x => { x with refCnt := x.refCnt + 1 }))) := by
  simp only [dedup_aux, h, hl, hf]
  rfl

theorem dedup_inr_nog (F : Nat) (a : Arena) (root : Option Nat) (n i : Nat)
    (h : getNode a n = none) :
    dedup_aux (F + 1) a root (.inr (n, i)) = some (some n, a) := by
  simp [dedup_aux, h]

theorem dedup_inr_exit (F : Nat) (a : Arena) (root : Option Nat) (n i : Nat)
    (nd : TreeNode) (h : getNode a n = some nd) (hi : ¬ i < nd.branches.length) :
    dedup_aux (F + 1) a root (.inr (n, i)) = some (some n, a) := by
  simp [dedup_aux, h, hi]

theorem dedup_inr_step (F : Nat) (a : Arena) (root : Option Nat) (n i : Nat)
    (nd : TreeNode) (h : getNode a n = some nd) (hi : i < nd.branches.length) :
    dedup_aux (F + 1) a root (.inr (n, i)) =
      match dedup_aux F a root (.inl (some (nd.branches.get ⟨i, hi⟩))) with
      | none => none
      | some (v, a1) =>
        dedup_aux F (modifyNode a1 n (fun x =>
          { x with branches := match v with
                               | some v' => x.branches.set i v'
                               | none => x.branches })) root (.inr (n, i + 1)) := by
  simp only [dedup_aux, h, hi]
  rfl

/-! ### The canonicalizer cases -/

theorem relAt_keep (a0 a a' : Arena) (root : Option Nat) (o0 oc : Option Nat)
    (h : RelAt a0 a root o0 oc)
    (hk : ∀ mv, oc = some mv → keyOf a' mv = keyOf a mv) :
    RelAt a0 a' root o0 oc := by
  cases o0 with
  | none => exact h
  | some n0 =>
    rcases h with ⟨n, hn, hkey, hor⟩
    exact ⟨n, hn, (hk n hn).trans hkey, hor⟩

theorem keyOf_of_rec (a a' : Arena) (mv : Nat) (h : recOf a' mv = recOf a mv) :
    keyOf a' mv = keyOf a mv := by
  rw [recOf, recOf] at h
  rw [keyOf, keyOf]
  cases h1 : getNode a' mv <;> cases h2 : getNode a mv <;> rw [h1, h2] at h <;> simp_all

theorem recOf_of_frame (a a' : Arena) (mv : Nat) (h : getNode a' mv = getNode a mv) :
    recOf a' mv = recOf a mv := by
  rw [recOf, recOf, h]

/-- The node form on a literal node: full postcondition. -/
theorem inl_lit_post (a0 : Arena) (root : Option Nat)
    (H1 : LitLeaves a0 = true) (H2 : UniqueRefs a0 root = true)
    (F : Nat) (a : Arena) (n : Nat) (P : List Nat) (nd : TreeNode)
    (hinv : Inv a0 root a) (hP : occAt a root P = some n)
    (hg : getNode a n = some nd)
    (hl : nd.token = T_STR_LITERAL ∨ nd.token = T_REG_EX)
    (res : Option Nat × Arena)
    (hded : dedup_aux (F + 1) a root (.inl (some n)) = some res) :
    PostInl a0 root a P n res := by
  obtain ⟨hrel, hleaves, hlen⟩ := hinv
  have hkey_n : keyOf a n = some (nd.token, nd.text) := by
    rw [keyOf, hg, Option.map_some']
  have hlit_k : litTok nd.token = true := (litTok_true_iff nd.token).mpr hl
  have hbrn : nd.branches = [] := litLeaves_branches a hleaves n nd hg hlit_k
  cases hf : find_literal F a root n nd.text nd.token with
  | none =>
    rw [dedup_inl_lit_nofind F a root n nd hg hl hf] at hded
    exact absurd hded (by simp)
  | some o =>
    cases o with
    | none =>
      exfalso
      rw [find_literal, find_literal_helper] at hf
      exact find_not_none a root F nd.text nd.token P n nd hP hg rfl rfl hf
    | some m =>
      have hcanon : Canon a0 root (nd.token, nd.text) m := by
        rw [find_literal, find_literal_helper] at hf
        exact find_stable a0 a root hrel F nd.text nd.token m hf
      have hfk : ∃ ndm, getNode a m = some ndm ∧ ndm.token = nd.token ∧ ndm.text = nd.text := by
        rw [find_literal, find_literal_helper] at hf
        exact find_aux_key F a (.inl root) nd.text nd.token m hf
      rcases hfk with ⟨ndm, hgm, hmtok, hmtxt⟩
      have hkey_m : keyOf a m = some (nd.token, nd.text) := by
        rw [keyOf, hgm, Option.map_some', hmtok, hmtxt]
      rw [dedup_inl_lit_found F a root n m nd hg hl hf] at hded
      obtain ⟨hb_key, hb_rec, hb_occ⟩ :=
        bump_facts a m
      by_cases hnm : n = m
      · rw [if_neg (by intro hh; exact hh hnm)] at hded
        have hres : res = (some m, modifyNode a m (fun x => { x with refCnt := x.refCnt + 1 })) := by
          exact (Option.some.inj hded).symm
        subst hres
        subst hnm
        refine ⟨n, _, rfl, ?_, ?_, ?_, ?_, ?_, ?_, ?_, ?_, ?_⟩
        · intro q hq
          rw [hb_occ q root]
          exact relAt_keep a0 a _ root _ _ (hrel q) (fun mv _ => hb_key mv)
        · intro s
          rw [hb_occ s (some n)]
          have h2 : occAt a root (P ++ s) = occAt a (some n) s := by
            rw [occAt_append, hP]
          rw [← h2]
          exact relAt_keep a0 a _ root _ _ (hrel (P ++ s)) (fun mv _ => hb_key mv)
        · exact hb_key n
        · exact Or.inr ⟨(nd.token, nd.text), hkey_n, hlit_k, hcanon⟩
        · intro q hq
          exact hb_occ q root
        · intro q mv hq hocc
          exact hb_rec mv
        · intro s mv ndv hocc hgv hlv
          cases s with
          | nil =>
            have hmv : mv = n := by simpa [occAt] using hocc.symm
            rw [hmv] at hgv ⊢
            have hgn1 : getNode (modifyNode a n (fun x => { x with refCnt := x.refCnt + 1 })) n =
                some { nd with refCnt := nd.refCnt + 1 } := getNode_modify_self a n _ nd hg
            rw [hgn1] at hgv
            have hndv : ndv = { nd with refCnt := nd.refCnt + 1 } := (Option.some.inj hgv).symm
            rw [hndv]
            exact hcanon
          | cons j s' =>
            exfalso
            have hgn1 : getNode (modifyNode a n (fun x => { x with refCnt := x.refCnt + 1 })) n =
                some { nd with refCnt := nd.refCnt + 1 } := getNode_modify_self a n _ nd hg
            rw [occAt_cons_nob _ n j s' _ hgn1 (by rw [hbrn]; rfl)] at hocc
            exact absurd hocc (by simp)
        · exact litLeaves_modify_keep a n _ (fun x => ⟨rfl, rfl⟩) hleaves
        · exact modify_length a n _
      · rw [if_pos hnm] at hded
        cases hdel : delete_node F (modifyNode a m (fun x => { x with refCnt := x.refCnt + 1 })) n with
        | none => rw [hdel] at hded; exact absurd hded (by simp)
        | some a3 =>
          rw [hdel] at hded
          have hres : res = (some m, a3) := (Option.some.inj hded).symm
          subst hres
          have hgn1 : getNode (modifyNode a m (fun x => { x with refCnt := x.refCnt + 1 })) n =
              some nd := by
            rw [getNode_modify_other a m n _ hnm]
            exact hg
          have hgm1 : getNode (modifyNode a m (fun x => { x with refCnt := x.refCnt + 1 })) m =
              some { ndm with refCnt := ndm.refCnt + 1 } := getNode_modify_self a m _ ndm hgm
          obtain ⟨hdf, ⟨ndc, hgc, hbc, hccase⟩, hlen3, hll3⟩ :=
            delete_leaf_facts F _ n nd hgn1 hbrn a3 hdel
          have huniq : ∀ q, occAt a root q = some n → q = P := by
            intro q hq
            refine occ_unique a0 root H2 a hrel hlen P q n (nd.token, nd.text) hP hq hkey_n
              (Or.inr ?_)
            intro hcn
            exact hnm (canon_eq a0 root (nd.token, nd.text) n m hcn hcanon)
          have hC : ∀ q, ¬ pfx P q → occAt a3 root q = occAt a root q := by
            intro q hq
            have h1 : occAt a3 root q =
                occAt (modifyNode a m (fun x => { x with refCnt := x.refCnt + 1 })) root q := by
              apply occAt_frame
              intro r j mv hpj hor
              by_cases hmn : mv = n
              · exfalso
                subst hmn
                rw [hb_occ r root] at hor
                have := huniq r hor
                subst this
                exact hq (pfx_extend r q j hpj)
              · rw [hdf mv hmn]
            rw [h1, hb_occ q root]
          have hkeep3 : ∀ mv, mv ≠ n → recOf a3 mv = recOf a mv := by
            intro mv hmv
            have h1 : recOf a3 mv =
                recOf (modifyNode a m (fun x => { x with refCnt := x.refCnt + 1 })) mv :=
              recOf_of_frame _ _ mv (hdf mv hmv)
            rw [h1, hb_rec mv]
          refine ⟨m, a3, rfl, ?_, ?_, ?_, ?_, hC, ?_, ?_, hll3 (litLeaves_modify_keep a m _ (fun x => ⟨rfl, rfl⟩) hleaves), by rw [hlen3, modify_length]⟩
          · intro q hq
            rw [hC q hq]
            refine relAt_keep a0 a _ root _ _ (hrel q) (fun mv hmv => ?_)
            have hmvn : mv ≠ n := by
              intro hh
              subst hh
              exact hq (by rw [huniq q hmv]; exact pfx_refl P)
            exact keyOf_of_rec a a3 mv (hkeep3 mv hmvn)
          · intro s
            have hOP := hrel P
            cases h0P : occAt a0 root P with
            | none =>
              exfalso
              rw [h0P] at hOP
              have : occAt a root P = none := hOP
              rw [hP] at this
              exact absurd this (by simp)
            | some oP =>
              rw [h0P] at hOP
              rcases hOP with ⟨n', hn', hkeyP, horP⟩
              have hn'n : n' = n := by rw [hP] at hn'; exact Option.some.inj hn'.symm
              subst hn'n
              have hkey3m : keyOf a3 m = some (nd.token, nd.text) := by
                rw [keyOf_of_rec a a3 m (hkeep3 m (fun hh => hnm hh.symm))]
                exact hkey_m
              have hkeyoP : keyOf a0 oP = some (nd.token, nd.text) := by
                rw [← hkeyP]
                exact hkey_n
              cases s with
              | nil =>
                have hocc3 : occAt a3 (some m) [] = some m := rfl
                rw [hocc3]
                have hPnil : P ++ [] = P := by simp
                rw [hPnil, h0P]
                refine ⟨m, rfl, ?_, Or.inr ⟨(nd.token, nd.text), hkeyoP, hlit_k, hcanon⟩⟩
                rw [hkey3m, hkeyoP]
              | cons j s' =>
                have hg3m : getNode a3 m = some { ndm with refCnt := ndm.refCnt + 1 } := by
                  rw [hdf m (fun hh => hnm hh.symm)]
                  exact hgm1
                have hbrm : ndm.branches = [] :=
                  litLeaves_branches a hleaves m ndm hgm (by rw [hmtok]; exact hlit_k)
                have hocc3 : occAt a3 (some m) (j :: s') = none := by
                  apply occAt_cons_nob a3 m j s' _ hg3m
                  show ndm.branches[j]? = none
                  rw [hbrm]; rfl
                rw [hocc3]
                rcases Option.map_eq_some'.mp (by rw [keyOf] at hkeyoP; exact hkeyoP) with
                  ⟨ndP0, hgP0, hkP0⟩
                have hbrP0 : ndP0.branches = [] := by
                  apply litLeaves_branches a0 H1 oP ndP0 hgP0
                  have : ndP0.token = nd.token := by
                    have := congrArg Prod.fst hkP0; simpa using this
                  rw [this]; exact hlit_k
                have h00 : occAt a0 root (P ++ j :: s') = none := by
                  rw [occAt_append, h0P]
                  apply occAt_cons_nob a0 oP j s' ndP0 hgP0
                  rw [hbrP0]; rfl
                rw [h00]
                rfl
          · rw [keyOf_of_rec a a3 m (hkeep3 m (fun hh => hnm hh.symm)), hkey_m, hkey_n]
          · exact Or.inr ⟨(nd.token, nd.text), hkey_n, hlit_k, hcanon⟩
          · intro q mv hq hocc
            have hmvn : mv ≠ n := by
              intro hh
              subst hh
              exact hq (by rw [huniq q hocc]; exact pfx_refl P)
            exact hkeep3 mv hmvn
          · intro s mv ndv hocc hgv hlv
            cases s with
            | nil =>
              have hmv : mv = m := by simpa [occAt] using hocc.symm
              rw [hmv] at hgv ⊢
              have hg3m : getNode a3 m = some { ndm with refCnt := ndm.refCnt + 1 } := by
                rw [hdf m (fun hh => hnm hh.symm)]
                exact hgm1
              rw [hg3m] at hgv
              have hndv : ndv = { ndm with refCnt := ndm.refCnt + 1 } := (Option.some.inj hgv).symm
              rw [hndv]
              show Canon a0 root (ndm.token, ndm.text) m
              rw [hmtok, hmtxt]
              exact hcanon
            | cons j s' =>
              exfalso
              have hg3m : getNode a3 m = some { ndm with refCnt := ndm.refCnt + 1 } := by
                rw [hdf m (fun hh => hnm hh.symm)]
                exact hgm1
              have hbrm : ndm.branches = [] :=
                litLeaves_branches a hleaves m ndm hgm (by rw [hmtok]; exact hlit_k)
              rw [occAt_cons_nob a3 m j s' _ hg3m (by show ndm.branches[j]? = none; rw [hbrm]; rfl)] at hocc
              exact absurd hocc (by simp)

/-- The node form on a non-literal node: its postcondition follows from
the branch loop's. -/
theorem inl_nonlit_post (a0 : Arena) (root : Option Nat)
    (a : Arena) (n : Nat) (P : List Nat) (nd : TreeNode)
    (hinv : Inv a0 root a) (hP : occAt a root P = some n)
    (hg : getNode a n = some nd)
    (hnl : litTok nd.token = false)
    (res : Option Nat × Arena)
    (hpost : PostInr a0 root a P n res) :
    PostInl a0 root a P n res := by
  obtain ⟨hrel, hleaves, hlen⟩ := hinv
  rcases hpost with ⟨a2, hres, hrel2, hll2, hlen2, hfr, hkey2, hdone⟩
  subst hres
  have hP2 : occAt a2 root P = some n := by rw [hfr P (not_pfxS_self P)]; exact hP
  refine ⟨n, a2, rfl, ?_, ?_, ?_, Or.inl rfl, ?_, ?_, ?_, hll2, hlen2⟩
  · intro q hq; exact hrel2 q
  · intro s
    have h2 : occAt a2 root (P ++ s) = occAt a2 (some n) s := by
      rw [occAt_append, hP2]
    rw [← h2]
    exact hrel2 (P ++ s)
  · exact (hkey2 P n (not_pfxS_self P) hP).1
  · intro q hq
    apply hfr
    intro hs
    exact hq (pfxS_pfx P q hs)
  · intro q mv hq hocc
    refine (hkey2 q mv (fun hs => hq (pfxS_pfx P q hs)) hocc).2 ?_
    intro hqP
    rw [hqP] at hq
    exact hq (pfx_refl P)
  · intro s mv ndv hocc hgv hlv
    cases s with
    | nil =>
      exfalso
      have hmv : mv = n := by simpa [occAt] using hocc.symm
      rw [hmv] at hgv
      have hkeq : keyOf a2 n = keyOf a n := (hkey2 P n (not_pfxS_self P) hP).1
      rw [keyOf, keyOf, hgv, hg] at hkeq
      have htk : ndv.token = nd.token := by
        have := congrArg (Option.map Prod.fst) hkeq
        simpa using this
      rw [htk, hnl] at hlv
      exact absurd hlv (by simp)
    | cons j s' =>
      have hocc2 : occAt a2 root (P ++ j :: s') = some mv := by
        rw [occAt_append, hP2]
        exact hocc
      exact hdone j s' mv ndv hocc2 hgv hlv

/-- The branch loop past the last branch: identity. -/
theorem inr_exit_post (a0 : Arena) (root : Option Nat)
    (a : Arena) (n : Nat) (P : List Nat) (i : Nat) (nd : TreeNode)
    (hinv : Inv a0 root a) (hP : occAt a root P = some n)
    (hg : getNode a n = some nd)
    (hpre : ∀ j, j < i → ∀ s m nd', occAt a root (P ++ j :: s) = some m →
      getNode a m = some nd' → litTok nd'.token = true →
      Canon a0 root (nd'.token, nd'.text) m)
    (hi : ¬ i < nd.branches.length) :
    PostInr a0 root a P n (some n, a) := by
  obtain ⟨hrel, hll, hlen⟩ := hinv
  refine ⟨a, rfl, hrel, hll, rfl, fun q _ => rfl, fun q mv _ _ => ⟨rfl, fun _ => rfl⟩, ?_⟩
  intro j s mv ndv hocc hgv hlv
  have hocc' := hocc
  rw [occAt_append, hP] at hocc'
  cases hb : nd.branches[j]? with
  | none =>
    rw [occAt_cons_nob a n j s nd hg hb] at hocc'
    exact absurd hocc' (by simp)
  | some b =>
    have hj : j < nd.branches.length := by
      by_contra hge
      rw [List.getElem?_eq_none (Nat.le_of_not_lt hge)] at hb
      exact absurd hb (by simp)
    exact hpre j (by omega) s mv ndv hocc hgv hlv

theorem pfx_trans (P q r : List Nat) (h1 : pfx P q) (h2 : pfx q r) : pfx P r := by
  rcases h1 with ⟨s1, hs1⟩
  rcases h2 with ⟨s2, hs2⟩
  exact ⟨s1 ++ s2, by rw [hs2, hs1, List.append_assoc]⟩

theorem pfxS_of_pfx_snoc (P q : List Nat) (i : Nat) (h : pfx (P ++ [i]) q) : pfxS P q := by
  rcases h with ⟨s, hs⟩
  exact ⟨i, s, by rw [hs, List.append_assoc]; rfl⟩

theorem rec_unpack (a a' : Arena) (x : Nat) (h : recOf a' x = recOf a x)
    (nd : TreeNode) (hg : getNode a x = some nd) :
    ∃ nd', getNode a' x = some nd' ∧ nd'.token = nd.token ∧ nd'.text = nd.text ∧
      nd'.branches = nd.branches := by
  rw [recOf, recOf, hg, Option.map_some'] at h
  rcases Option.map_eq_some'.mp h with ⟨nd', hg', he⟩
  refine ⟨nd', hg', ?_, ?_, ?_⟩
  · have := congrArg Prod.fst he; simpa using this
  · have := congrArg (fun z => z.2.1) he; simpa using this
  · have := congrArg (fun z => z.2.2) he; simpa using this

/-- The branch-loop step: after the recursive node call on slot i and
the slot write-back, the loop invariant is restored and frame facts
hold. -/
theorem inr_step_mid (a0 : Arena) (root : Option Nat)
    (H1 : LitLeaves a0 = true) (H2 : UniqueRefs a0 root = true)
    (a : Arena) (n : Nat) (P : List Nat) (i : Nat) (nd : TreeNode)
    (hinv : Inv a0 root a) (hP : occAt a root P = some n)
    (hg : getNode a n = some nd) (hnl : litTok nd.token = false)
    (hpre : ∀ j, j < i → ∀ s m nd', occAt a root (P ++ j :: s) = some m →
      getNode a m = some nd' → litTok nd'.token = true →
      Canon a0 root (nd'.token, nd'.text) m)
    (hi : i < nd.branches.length) (b : Nat) (hbv : nd.branches[i]? = some b)
    (v' : Nat) (a1 : Arena)
    (hpin : PostInl a0 root a (P ++ [i]) b (some v', a1)) :
    Inv a0 root (modifyNode a1 n (fun x => { x with branches := x.branches.set i v' })) ∧
    occAt (modifyNode a1 n (fun x => { x with branches := x.branches.set i v' })) root P = some n ∧
    (∃ nd2, getNode (modifyNode a1 n (fun x => { x with branches := x.branches.set i v' })) n = some nd2 ∧
      nd2.token = nd.token ∧ nd2.text = nd.text ∧ nd2.branches = nd.branches.set i v') ∧
    (∀ j, j < i + 1 → ∀ s m nd', occAt (modifyNode a1 n (fun x => { x with branches := x.branches.set i v' })) root (P ++ j :: s) = some m →
      getNode (modifyNode a1 n (fun x => { x with branches := x.branches.set i v' })) m = some nd' →
      litTok nd'.token = true → Canon a0 root (nd'.token, nd'.text) m) ∧
    (∀ q, ¬ pfx (P ++ [i]) q → occAt (modifyNode a1 n (fun x => { x with branches := x.branches.set i v' })) root q = occAt a root q) ∧
    (∀ q mv, ¬ pfx (P ++ [i]) q → q ≠ P → occAt a root q = some mv →
      recOf (modifyNode a1 n (fun x => { x with branches := x.branches.set i v' })) mv = recOf a mv) ∧
    keyOf (modifyNode a1 n (fun x => { x with branches := x.branches.set i v' })) n = keyOf a n := by
  obtain ⟨hrel, hll, hlen⟩ := hinv
  rcases hpin with ⟨v'', a1', hres1, hA1, hA2, hBkey, hBor, hC, hD, hE, hll1, hlen1⟩
  have hv : v' = v'' := Option.some.inj (congrArg Prod.fst hres1)
  subst hv
  have ha1 : a1 = a1' := congrArg Prod.snd hres1
  subst ha1
  set Pb : List Nat := P ++ [i] with hPb
  set a2 : Arena := modifyNode a1 n (fun x => { x with branches := x.branches.set i v' }) with ha2def
  have hkey_n : keyOf a n = some (nd.token, nd.text) := by
    rw [keyOf, hg, Option.map_some']
  -- n occurs only at P in the clean heap a
  have huniq : ∀ q, occAt a root q = some n → q = P := by
    intro q hq
    exact occ_unique a0 root H2 a hrel hlen P q n (nd.token, nd.text) hP hq hkey_n (Or.inl hnl)
  -- n never occurs inside the processed child subtree of a1
  have hnotin : ∀ s mv, occAt a1 (some v') s = some mv → mv ≠ n := by
    intro s mv hocc hmv
    rw [hmv] at hocc
    clear hmv
    have hbb := hA2 s
    cases h0 : occAt a0 root (Pb ++ s) with
    | none =>
      rw [h0] at hbb
      have : occAt a1 (some v') s = none := hbb
      rw [hocc] at this
      exact absurd this (by simp)
    | some o =>
      rw [h0] at hbb
      rcases hbb with ⟨mv', hmv', hkey', hor'⟩
      rw [hocc] at hmv'
      have h7 : n = mv' := Option.some.inj hmv'
      subst h7
      -- n = o_P in a0
      have hOP := hrel P
      cases h0P : occAt a0 root P with
      | none =>
        rw [h0P] at hOP
        have h9 : occAt a root P = none := hOP
        rw [hP] at h9
        exact absurd h9 (by simp)
      | some oP =>
        rw [h0P] at hOP
        rcases hOP with ⟨n', hn', hkeyP, horP⟩
        have hn'n : n = n' := by rw [hP] at hn'; exact Option.some.inj hn'
        subst hn'n
        have hnoP : n = oP := by
          rcases horP with h9 | ⟨k', hk', hlit', _⟩
          · exact h9
          · exfalso
            rw [← hkeyP, hkey_n] at hk'
            have hk'' : (nd.token, nd.text) = k' := Option.some.inj hk'
            rw [← hk''] at hlit'
            simp only at hlit'
            rw [hnl] at hlit'
            exact absurd hlit' (by simp)
        rcases hor' with h9 | ⟨k', hk', hlit', hcn⟩
        · -- n sits at two distinct a0 positions: P and Pb ++ s
          have h0' : occAt a0 root (Pb ++ s) = some n := by rw [h0, h9]
          have h0P' : occAt a0 root P = some n := by rw [h0P, hnoP]
          have hnlt : n < a0.length := by
            rw [← hlen]
            exact getNode_lt a n nd hg
          have heq := path_unique a0 root H2 ((Pb ++ s).length + P.length) (Pb ++ s) P n
            (Nat.le_refl _) hnlt h0' h0P'
          have := congrArg List.length heq
          rw [hPb] at this
          simp at this
        · -- n canonical at a literal key, but its key is non-literal
          have hkn0 : keyOf a0 n = some k' := canon_key a0 root k' n hcn
          have hnoP' : keyOf a0 oP = some (nd.token, nd.text) := by
            rw [← hkeyP]; exact hkey_n
          rw [← hnoP] at hnoP'
          rw [hkn0] at hnoP'
          have hk'' : k' = (nd.token, nd.text) := Option.some.inj hnoP'
          rw [hk''] at hlit'
          simp only at hlit'
          rw [hnl] at hlit'
          exact absurd hlit' (by simp)
  -- the record of n survives the child call
  have hrecn : recOf a1 n = recOf a n := hD P n (not_pfx_snoc_self P i) hP
  rcases rec_unpack a a1 n hrecn nd hg with ⟨nd1, hgn1, ht1, hx1, hb1⟩
  have hgn2 : getNode a2 n = some { nd1 with branches := nd1.branches.set i v' } :=
    getNode_modify_self a1 n _ nd1 hgn1
  have hnd2 : ∃ nd2, getNode a2 n = some nd2 ∧ nd2.token = nd.token ∧ nd2.text = nd.text ∧
      nd2.branches = nd.branches.set i v' := by
    refine ⟨_, hgn2, ht1, hx1, ?_⟩
    show nd1.branches.set i v' = nd.branches.set i v'
    rw [hb1]
  have hkeyn2 : keyOf a2 n = keyOf a n := by
    rw [keyOf, keyOf, hgn2, hg, Option.map_some', Option.map_some']
    show some (nd1.token, nd1.text) = some (nd.token, nd.text)
    rw [ht1, hx1]
  -- (G1) traversal frame outside the processed slot
  have hG1 : ∀ q, ¬ pfx Pb q → occAt a2 root q = occAt a root q := by
    intro q hq
    have h1 : occAt a2 root q = occAt a1 root q := by
      apply occAt_frame
      intro r j' mvr hpj hor
      by_cases hmn : mvr = n
      · subst hmn
        have hnp : ¬ pfx Pb r := by
          intro hh
          exact hq (pfx_trans Pb r q hh (pfx_trans r (r ++ [j']) q (pfx_app r [j']) hpj))
        rw [hC r hnp] at hor
        have hrP := huniq r hor
        subst hrP
        have hji : j' ≠ i := by
          intro hh
          subst hh
          exact hq hpj
        rw [hgn2, hgn1, Option.map_some', Option.map_some']
        show some ((nd1.branches.set i v')[j']?) = some (nd1.branches[j']?)
        exact congrArg some (List.getElem?_set_ne (fun hh => hji hh.symm))
      · rw [getNode_modify_other a1 n mvr _ hmn]
    rw [h1]
    exact hC q hq
  have hP2 : occAt a2 root P = some n := by
    rw [hG1 P (not_pfx_snoc_self P i)]
    exact hP
  -- (G4) traversal into the processed slot
  have hG4 : ∀ s, occAt a2 root (Pb ++ s) = occAt a1 (some v') s := by
    intro s
    have h1 : occAt a2 root (Pb ++ s) = occAt a2 (some v') s := by
      rw [hPb, List.append_assoc]
      rw [occAt_append, hP2]
      show occAt a2 (some n) (i :: s) = occAt a2 (some v') s
      apply occAt_cons_br a2 n i s _ v' hgn2
      show (nd1.branches.set i v')[i]? = some v'
      apply List.getElem?_set_self
      rw [hb1]
      exact hi
    rw [h1]
    apply occAt_frame
    intro r j' mvr hpj hor
    have hmn : mvr ≠ n := hnotin r mvr hor
    rw [getNode_modify_other a1 n mvr _ hmn]
  -- record frame for nodes other than n
  have hDs : ∀ q mv, ¬ pfx Pb q → q ≠ P → occAt a root q = some mv →
      recOf a2 mv = recOf a mv := by
    intro q mv hq hqP hocc
    have hmn : mv ≠ n := by
      intro hh
      subst hh
      exact hqP (huniq q hocc)
    rw [recOf_of_frame a1 a2 mv (getNode_modify_other a1 n mv _ hmn)]
    exact hD q mv hq hocc
  -- the full invariant of the written-back heap
  have hinv2 : Inv a0 root a2 := by
    refine ⟨?_, ?_, ?_⟩
    · intro q
      by_cases hq : pfx Pb q
      · rcases hq with ⟨s, hs⟩
        subst hs
        rw [hG4 s]
        refine relAt_keep a0 a1 a2 root _ _ (hA2 s) (fun mv hmv => ?_)
        have hmn : mv ≠ n := hnotin s mv hmv
        exact keyOf_of_rec a1 a2 mv (recOf_of_frame a1 a2 mv (getNode_modify_other a1 n mv _ hmn))
      · rw [hG1 q hq]
        refine relAt_keep a0 a a2 root _ _ (hrel q) (fun mv hmv => ?_)
        by_cases hmn : mv = n
        · subst hmn
          exact hkeyn2
        · have hqP : q = P → False := by
            intro hh
            subst hh
            rw [hP] at hmv
            exact hmn (Option.some.inj hmv.symm)
          exact keyOf_of_rec a a2 mv (hDs q mv hq (fun hh => hqP hh) hmv)
    · have h9 : litTok nd1.token = false := by rw [ht1]; exact hnl
      rw [ha2def, modify_eq_set a1 n _ nd1 hgn1]
      apply litLeaves_set_true
      · left
        show litTok nd1.token = false
        exact h9
      · exact hll1
    · rw [ha2def, modify_length, hlen1, hlen]
  refine ⟨hinv2, hP2, hnd2, ?_, hG1, hDs, hkeyn2⟩
  -- the processed-slots property now holds up to i+1
  intro j hj s mv ndv hocc hgv hlv
  by_cases hji : j = i
  · subst hji
    have h9 : occAt a2 root (P ++ j :: s) = occAt a1 (some v') s := by
      have : P ++ j :: s = Pb ++ s := by rw [hPb, List.append_assoc]; rfl
      rw [this]
      exact hG4 s
    rw [h9] at hocc
    have hmn : mv ≠ n := hnotin s mv hocc
    rw [getNode_modify_other a1 n mv _ hmn] at hgv
    exact hE s mv ndv hocc hgv hlv
  · have hnp : ¬ pfx Pb (P ++ j :: s) := not_pfx_snoc_of_ne P i j hji
    rw [hG1 _ hnp] at hocc
    have hmn : mv ≠ n := by
      intro hh
      subst hh
      have := huniq _ hocc
      have h8 := congrArg List.length this
      simp at h8
    rw [getNode_modify_other a1 n mv _ hmn] at hgv
    have hrecm : recOf a1 mv = recOf a mv := hD _ mv hnp hocc
    rcases rec_unpack a1 a mv hrecm.symm ndv hgv with ⟨nd0, hg0, ht0, hx0, _⟩
    have := hpre j (by omega) s mv nd0 hocc hg0 (by rw [ht0]; exact hlv)
    rw [← ht0, ← hx0]
    exact this

/-- Composing the loop step's write-back with the rest of the loop. -/
theorem inr_step_compose (a0 : Arena) (root : Option Nat)
    (a a2 : Arena) (n : Nat) (P : List Nat) (i : Nat)
    (hG1 : ∀ q, ¬ pfx (P ++ [i]) q → occAt a2 root q = occAt a root q)
    (hDs : ∀ q mv, ¬ pfx (P ++ [i]) q → q ≠ P → occAt a root q = some mv →
      recOf a2 mv = recOf a mv)
    (hK : keyOf a2 n = keyOf a n)
    (hlen2 : a2.length = a.length)
    (huniq : ∀ q, occAt a root q = some n → q = P)
    (hP : occAt a root P = some n)
    (res : Option Nat × Arena)
    (hrec : PostInr a0 root a2 P n res) :
    PostInr a0 root a P n res := by
  rcases hrec with ⟨a3, hres, hrel3, hll3, hlen3, hfr3, hkey3, hdone3⟩
  have hnps : ∀ q : List Nat, ¬ pfxS P q → ¬ pfx (P ++ [i]) q := by
    intro q hq hh
    exact hq (pfxS_of_pfx_snoc P q i hh)
  refine ⟨a3, hres, hrel3, hll3, by rw [hlen3, hlen2], ?_, ?_, hdone3⟩
  · intro q hq
    rw [hfr3 q hq]
    exact hG1 q (hnps q hq)
  · intro q mv hq hocc
    have hocc2 : occAt a2 root q = some mv := by
      rw [hG1 q (hnps q hq)]
      exact hocc
    have h3 := hkey3 q mv hq hocc2
    constructor
    · rw [h3.1]
      by_cases hqP : q = P
      · subst hqP
        have hmv : mv = n := by rw [hP] at hocc; exact Option.some.inj hocc.symm
        subst hmv
        exact hK
      · exact keyOf_of_rec a a2 mv (hDs q mv (hnps q hq) hqP hocc)
    · intro hqP
      rw [h3.2 hqP]
      exact hDs q mv (hnps q hq) hqP hocc

/-- The main induction: every terminating run of the canonicalizer
satisfies the node-form and loop-form postconditions. -/
theorem dedup_main (a0 : Arena) (root : Option Nat)
    (H1 : LitLeaves a0 = true) (H2 : UniqueRefs a0 root = true) :
    ∀ F : Nat,
      (∀ (a : Arena) (n : Nat) (P : List Nat) (res : Option Nat × Arena),
        Inv a0 root a → occAt a root P = some n →
        dedup_aux F a root (.inl (some n)) = some res →
        PostInl a0 root a P n res) ∧
      (∀ (a : Arena) (n : Nat) (P : List Nat) (i : Nat) (nd : TreeNode)
         (res : Option Nat × Arena),
        Inv a0 root a → occAt a root P = some n →
        getNode a n = some nd → litTok nd.token = false →
        (∀ j, j < i → ∀ s m nd', occAt a root (P ++ j :: s) = some m →
          getNode a m = some nd' → litTok nd'.token = true →
          Canon a0 root (nd'.token, nd'.text) m) →
        dedup_aux F a root (.inr (n, i)) = some res →
        PostInr a0 root a P n res) := by
  intro F
  induction F with
  | zero =>
    constructor
    · intro a n P res hinv hP hded
      rw [dedup_zero] at hded
      exact absurd hded (by simp)
    · intro a n P i nd res hinv hP hg hnl hpre hded
      rw [dedup_zero] at hded
      exact absurd hded (by simp)
  | succ F ih =>
    constructor
    · intro a n P res hinv hP hded
      cases hg : getNode a n with
      | none =>
        rw [dedup_inl_nog F a root n hg] at hded
        have hres : res = (some n, a) := (Option.some.inj hded).symm
        subst hres
        obtain ⟨hrel, hll, hlen⟩ := hinv
        refine ⟨n, a, rfl, fun q _ => hrel q, ?_, rfl, Or.inl rfl, fun q _ => rfl,
          fun q mv _ _ => rfl, ?_, hll, rfl⟩
        · intro s
          have h2 : occAt a root (P ++ s) = occAt a (some n) s := by
            rw [occAt_append, hP]
          rw [← h2]
          exact hrel (P ++ s)
        · intro s mv ndv hocc hgv hlv
          exfalso
          cases s with
          | nil =>
            have hmv : mv = n := by simpa [occAt] using hocc.symm
            rw [hmv] at hgv
            rw [hg] at hgv
            exact absurd hgv (by simp)
          | cons j s' =>
            rw [occAt_cons_nog a n j s' hg] at hocc
            exact absurd hocc (by simp)
      | some nd =>
        by_cases hl : nd.token = T_STR_LITERAL ∨ nd.token = T_REG_EX
        · exact inl_lit_post a0 root H1 H2 F a n P nd hinv hP hg hl res hded
        · rw [dedup_inl_nonlit F a root n nd hg hl] at hded
          have hnl : litTok nd.token = false := by
            rw [Bool.eq_false_iff]
            intro hh
            exact hl ((litTok_true_iff nd.token).mp hh)
          have hpost := ih.2 a n P 0 nd res hinv hP hg hnl
            (by intro j hj; omega) hded
          exact inl_nonlit_post a0 root a n P nd hinv hP hg hnl res hpost
    · intro a n P i nd res hinv hP hg hnl hpre hded
      by_cases hi : i < nd.branches.length
      · rw [dedup_inr_step F a root n i nd hg hi] at hded
        have hbv : nd.branches[i]? = some (nd.branches.get ⟨i, hi⟩) := by
          rw [List.getElem?_eq_getElem hi]
          rfl
        have hb : occAt a root (P ++ [i]) = some (nd.branches.get ⟨i, hi⟩) :=
          occAt_snoc a root P i n (nd.branches.get ⟨i, hi⟩) nd hP hg hbv
        cases hd1 : dedup_aux F a root (.inl (some (nd.branches.get ⟨i, hi⟩))) with
        | none => rw [hd1] at hded; exact absurd hded (by simp)
        | some res1 =>
          rw [hd1] at hded
          have hpin := ih.1 a (nd.branches.get ⟨i, hi⟩) (P ++ [i]) res1 hinv hb hd1
          obtain ⟨v', a1, hres1, hA1, hA2, hBk, hBo, hC, hD, hE, hll1, hlen1⟩ := hpin
          have hpin' : PostInl a0 root a (P ++ [i]) (nd.branches.get ⟨i, hi⟩) (some v', a1) :=
            ⟨v', a1, rfl, hA1, hA2, hBk, hBo, hC, hD, hE, hll1, hlen1⟩
          subst hres1
          have hded2 : dedup_aux F
              (modifyNode a1 n (fun x => { x with branches := x.branches.set i v' }))
              root (.inr (n, i + 1)) = some res := hded
          have hmid := inr_step_mid a0 root H1 H2 a n P i nd hinv hP hg hnl hpre hi
            (nd.branches.get ⟨i, hi⟩) hbv v' a1 hpin'
          obtain ⟨hinv2, hP2, ⟨nd2, hgn2, ht2, hx2, hb2⟩, hpre2, hG1, hDs, hK⟩ := hmid
          have hrec := ih.2
            (modifyNode a1 n (fun x => { x with branches := x.branches.set i v' }))
            n P (i + 1) nd2 res hinv2 hP2 hgn2
            (by show litTok nd2.token = false; rw [ht2]; exact hnl) hpre2 hded2
          obtain ⟨hrel, hll, hlen⟩ := hinv
          have huniq : ∀ q, occAt a root q = some n → q = P := by
            intro q hq
            exact occ_unique a0 root H2 a hrel hlen P q n (nd.token, nd.text) hP hq
              (by rw [keyOf, hg, Option.map_some']) (Or.inl hnl)
          exact inr_step_compose a0 root a
            (modifyNode a1 n (fun x => { x with branches := x.branches.set i v' }))
            n P i hG1 hDs hK (by rw [hinv2.2.2, hlen]) huniq hP res hrec
      · rw [dedup_inr_exit F a root n i nd hg hi] at hded
        have hres : res = (some n, a) := (Option.some.inj hded).symm
        subst hres
        exact inr_exit_post a0 root a n P i nd hinv hP hg hpre hi

/-! ### The claims -/

/-- Claim C1 (code_bug evidence).  The claim says read_production accepts
`identifier ':=' expr '.'` with and without a leading TOKEN keyword and
that both produce the same Production node.  In the code as written,
`read_production` returns NULL for any production that does not begin
with the TOKEN keyword (its switch falls through to `return 0` both for
a first character other than 'T' and for a 'T' word other than TOKEN),
contradicting the grammar comment `production := [ 'TOKEN' ] identifier
':=' expr '.'` in the same source file and the repository's own
test.ebnf.  Concretely: `a := 'x' .` parses to NULL and main aborts
with "production list expected" and a nonzero exit, while
`TOKEN a := 'x' .` yields the expected tree (with no TOKEN flag stored
anywhere in the node, as the claim's flag-erasure half states). -/
theorem claim_C1 :
    okVal (parseTop 100 "a := 'x' .".toList) = some none ∧
    reportMsg (mainC 200 ["t".toList] "a := 'x' .".toList) =
      some "production list expected".toList ∧
    exitedZero (mainC 200 ["t".toList] "a := 'x' .".toList) = false ∧
    okVal (parseTop 100 "TOKEN a := 'x' .".toList) = some (some 5) ∧
    (okSt (parseTop 100 "TOKEN a := 'x' .".toList)).map (fun st => arenaView st.arena) =
      some [(T_EOS, none, []), (T_STR_LITERAL, some ['x'], []), (T_EOS, none, []),
            (T_EOS, none, []), (T_PRODUCTION, some ['a'], [1]),
            (T_PROD_LIST, none, [4])] := by
  decide

/-- Claim C3 (code_bug evidence).  The claim says refCnt of every
reachable node equals the number of branch slots referring to it after
canonicalization.  In the code, find_literal_helper ignores its `query`
argument, so when the canonicalizer visits the first (or only)
occurrence of a literal it finds that very node, bumps its refCnt and
leaves the slot alone: after `TOKEN a := 'x' .` the T_STR_LITERAL node
(heap index 1, reachable as child 0 of child 0 of the root) has
refCnt 2 while exactly one branch slot refers to it. -/
theorem claim_C3 :
    (parseDedup 200 "TOKEN a := 'x' .".toList).map (fun va =>
      (occAt va.2 va.1 [0, 0],
       (getNode va.2 1).map (fun n => (n.token, n.refCnt)),
       slotRefs va.2 1)) =
    some (some 1, some (T_STR_LITERAL, 2), 1) := by
  decide

/-- Claim C4 (code_bug evidence).  The claim says that for a grammar with
an unresolved identifier under a non-binary parent — its example being
`a := b .` — branch emission aborts with "production 'b' not found" and
a nonzero exit.  Because of the TOKEN parser defect (claim C1), the
example input never reaches emission: it aborts during parsing with
"production list expected" (still nonzero, but not the claimed message
and not in the emitter).  The TOKEN-prefixed form of the same grammar
shows the claimed emission behaviour exactly: `TOKEN a := b .` aborts
through report2 with precisely "production 'b' not found" and exits
nonzero. -/
theorem claim_C4 :
    reportMsg (mainC 200 ["t".toList] "a := b .".toList) =
      some "production list expected".toList ∧
    report2Msg (mainC 200 ["t".toList] "a := b .".toList) = none ∧
    exitedZero (mainC 200 ["t".toList] "a := b .".toList) = false ∧
    report2Msg (mainC 200 ["t".toList] "TOKEN a := b .".toList) =
      some ("production 'b' not found".toList) ∧
    exitedZero (mainC 200 ["t".toList] "TOKEN a := b .".toList) = false := by
  decide

/-- Claim C2, counterexample.  The claim reads: no two distinct reachable
nodes of kind StrLit or Regex have byte-equal text — every slot holding
a literal or regex of a given text points at one single node.  The
canonicalizer, however, only merges nodes of the same kind (find_literal
matches on token AND text), so a string literal and a regex with the
same text survive as two distinct reachable nodes: after
`TOKEN a := 'x' /x/ .` the canonicalized heap reaches node 1
(T_STR_LITERAL, text "x") at path [0,0,0] and node 3 (T_REG_EX, text
"x") at path [0,0,1] — distinct nodes with byte-equal text. -/
theorem claim_C2_counterexample :
    (parseDedup 200 "TOKEN a := 'x' /x/ .".toList).map (fun va =>
      (occAt va.2 va.1 [0, 0, 0], occAt va.2 va.1 [0, 0, 1])) =
      some (some 1, some 3) ∧
    (parseDedup 200 "TOKEN a := 'x' /x/ .".toList).map (fun va =>
      (getNode va.2 1).map (fun n => (n.token, n.text))) =
      some (some (T_STR_LITERAL, some ['x'])) ∧
    (parseDedup 200 "TOKEN a := 'x' /x/ .".toList).map (fun va =>
      (getNode va.2 3).map (fun n => (n.token, n.text))) =
      some (some (T_REG_EX, some ['x'])) := by
  refine ⟨by decide, by decide, by decide⟩

/-- Claim C2, amended and proved universally: for every heap in which
literal nodes are leaves (LitLeaves) and every node carries at most one
reference (UniqueRefs) — both true of parser-built heaps — whenever the
canonicalization pass deduplicate_literals(&tree, tree) terminates, any
two nodes reached from the resulting tree that are of the same literal
kind (both T_STR_LITERAL or both T_REG_EX) and have byte-equal text are
one and the same node.  Per the counterexample, the same-kind
restriction is necessary: find_literal matches on token AND text, so a
StrLit and a Regex of equal text survive as distinct nodes. -/
theorem claim_C2_amended (F : Nat) (a0 : Arena) (root : Option Nat)
    (v : Option Nat) (a' : Arena) (p q : List Nat) (m n : Nat) (nm nn : TreeNode)
    (H1 : LitLeaves a0 = true) (H2 : UniqueRefs a0 root = true)
    (hd : dedupTop F a0 root = some (v, a'))
    (hp : occAt a' v p = some m) (hq : occAt a' v q = some n)
    (hgm : getNode a' m = some nm) (hgn : getNode a' n = some nn)
    (hlm : litTok nm.token = true) (htok : nm.token = nn.token)
    (htxt : nm.text = nn.text) : m = n := by
  rw [dedupTop, deduplicate_literals] at hd
  cases root with
  | none =>
    cases F with
    | zero => rw [dedup_zero] at hd; exact absurd hd (by simp)
    | succ F =>
      rw [dedup_inl_none] at hd
      have hv : v = none := by
        have := congrArg Prod.fst (Option.some.inj hd)
        simpa using this.symm
      rw [hv, occAt_none] at hp
      exact absurd hp (by simp)
  | some r =>
    cases F with
    | zero => rw [dedup_zero] at hd; exact absurd hd (by simp)
    | succ F =>
      have hinv0 : Inv a0 (some r) a0 := by
        refine ⟨?_, H1, rfl⟩
        intro s
        cases h0 : occAt a0 (some r) s with
        | none => exact rfl
        | some x => exact ⟨x, rfl, rfl, Or.inl rfl⟩
      have hmain := (dedup_main a0 (some r) H1 H2 (F + 1)).1 a0 r [] (v, a') hinv0 rfl hd
      rcases hmain with ⟨v', a2, hres, hA1, hA2, hBk, hBo, hC, hD, hE, hll2, hlen2⟩
      have hv : v = some v' := congrArg Prod.fst hres
      have ha2 : a' = a2 := congrArg Prod.snd hres
      subst ha2
      rw [hv] at hp hq
      have hcm : Canon a0 (some r) (nm.token, nm.text) m := hE p m nm hp hgm hlm
      have hcn : Canon a0 (some r) (nn.token, nn.text) n :=
        hE q n nn hq hgn (by rw [← htok]; exact hlm)
      rw [← htok, ← htxt] at hcn
      exact canon_eq a0 (some r) (nm.token, nm.text) m n hcm hcn

/-- The parse state of the two-production witness grammar. -/
def c2St : St :=
  endSt (parseTop 300 "TOKEN a := 'x' . TOKEN b := 'x' .".toList) (initSt [])

def c2A0 : Arena := c2St.arena

def c2Arena : Arena :=
  match dedupTop 50 c2A0 (some 5) with
  | some r => r.2
  | none => c2A0

def c2nm : TreeNode :=
  match getNode c2Arena 1 with
  | some nd => nd
  | none =>
    { token := T_EOS, text := none, branches := [], exportIdent := none,
      nodeTypeEnum := none, id := -1, branchesIx := -1, refCnt := 0,
      branchesOutput := false, implOutput := false }

set_option maxRecDepth 10000 in
/-- Claim C2, witness: the amended theorem applied to the canonicalized
heap of TOKEN a := 'x' . TOKEN b := 'x' . at the two literal slots,
both of which hold node 1. -/
theorem claim_C2_witness :
    LitLeaves c2A0 = true ∧ UniqueRefs c2A0 (some 5) = true ∧
    dedupTop 50 c2A0 (some 5) = some (some 5, c2Arena) ∧
    occAt c2Arena (some 5) [0, 0] = some 1 ∧
    occAt c2Arena (some 5) [1, 0] = some 1 ∧
    getNode c2Arena 1 = some c2nm ∧ litTok c2nm.token = true ∧
    c2nm.token = T_STR_LITERAL ∧ c2nm.text = some ['x'] ∧
    (1 : Nat) = 1 := by
  refine ⟨by decide, by decide, by decide, by decide, by decide, by decide, by decide,
    by decide, by decide, ?_⟩
  exact claim_C2_amended 50 c2A0 (some 5) (some 5) c2Arena [0, 0] [1, 0] 1 1 c2nm c2nm
    (by decide) (by decide) (by decide) (by decide) (by decide) (by decide) (by decide)
    (by decide) rfl rfl

/-- Claim C7, counterexample.  The claim says an empty standard input
prints nothing and exits 0.  Invoked the only way that reads input
(a file-stem argument), the program first prints "file stem is 't'" to
stdout and then aborts through report("production list expected") with
exit status 1 — so it neither prints nothing nor exits 0. -/
theorem claim_C7_counterexample :
    ¬ ((endSt (mainC 200 ["t".toList] []) (initSt [])).outS = [] ∧
       exitedZero (mainC 200 ["t".toList] []) = true) := by
  decide

/-- Claim C7, amended: on empty standard input the program prints the
file-stem line to stdout, emits nothing to either output file, reports
"production list expected" and exits nonzero. -/
theorem claim_C7_amended :
    reportMsg (mainC 200 ["t".toList] []) = some "production list expected".toList ∧
    exitedZero (mainC 200 ["t".toList] []) = false ∧
    (endSt (mainC 200 ["t".toList] []) (initSt [])).outS = "file stem is 't'\n".toList ∧
    (endSt (mainC 200 ["t".toList] []) (initSt [])).imp = [] ∧
    (endSt (mainC 200 ["t".toList] []) (initSt [])).hdr = [] := by
  decide

/-- Claim C8, counterexample.  The claim says the file-stem is required
only when emitting code, and that `--tree` alone dumps the AST and
exits 0.  In main, the missing-parameter check precedes the printTree
check, so `--tree` without a file-stem prints "missing parameter, see
--help" to stderr and returns EXIT_FAILURE without reading any input or
dumping anything. -/
theorem claim_C8_counterexample :
    (match mainC 200 ["--tree".toList] "TOKEN a := 'x' .".toList with
     | .ok (c, st) => some (c, st.outS, st.errS)
     | .error _ => none) =
      some (1, [], "missing parameter, see --help\n".toList) ∧
    (endSt (mainC 200 ["--tree".toList] "TOKEN a := 'x' .".toList) (initSt [])).imp = [] ∧
    (endSt (mainC 200 ["--tree".toList] "TOKEN a := 'x' .".toList) (initSt [])).hdr = [] := by
  refine ⟨by decide, by decide, by decide⟩

/-- Claim C8, amended: the file-stem argument is required even with
--tree; given both, the program dumps the AST to stdout (after the
file-stem line) and exits 0, emitting nothing to the output files. -/
theorem claim_C8_amended :
    exitedZero (mainC 200 ["--tree".toList, "t".toList] "TOKEN a := 'x' .".toList) = true ∧
    (endSt (mainC 200 ["--tree".toList, "t".toList] "TOKEN a := 'x' .".toList)
        (initSt [])).outS =
      ("file stem is 't'\nT_PROD_LIST\n  T_PRODUCTION 'a'\n" ++
       "    T_STR_LITERAL 'x'\n").toList ∧
    (endSt (mainC 200 ["--tree".toList, "t".toList] "TOKEN a := 'x' .".toList)
        (initSt [])).imp = [] ∧
    (endSt (mainC 200 ["--tree".toList, "t".toList] "TOKEN a := 'x' .".toList)
        (initSt [])).hdr = [] := by
  decide

/-- The C9 counterexample input: TOKEN a := 'a-(newline)-b' . -/
def c9newlineInput : List Char :=
  "TOKEN a := ".toList ++ [sq] ++ "a-".toList ++ ['\n'] ++ "-b".toList ++ [sq] ++
  " .".toList

/-- The C9 example input from the claim (TOKEN-prefixed so that it gets
past the parser defect of claim C1): TOKEN a := 'x--y' . -/
def c9dashInput : List Char :=
  "TOKEN a := ".toList ++ [sq] ++ "x--y".toList ++ [sq] ++ " .".toList

/-- Claim C9, counterexample.  The claim says the text of a StrLit/Regex
node can never contain "--" because rdch collapses two consecutive
dashes into a comment even inside literal bodies.  But rdch only sees
two dashes as consecutive if nothing intervenes in the raw stream: in
`TOKEN a := 'a-(newline)-b' .` each dash is followed by a newline resp.
'b', so both are delivered, and the parser builds a reachable
T_STR_LITERAL node whose text "a--b" contains "--". -/
theorem claim_C9_counterexample :
    okVal (parseTop 100 c9newlineInput) = some (some 5) ∧
    (okSt (parseTop 100 c9newlineInput)).map (fun st =>
      (occAt st.arena (some 5) [0, 0],
       (getNode st.arena 1).map (fun n => (n.token, n.text)))) =
      some (some 1, some (T_STR_LITERAL, some "a--b".toList)) ∧
    listContains "a--b".toList "--".toList = true := by
  decide

/-- Claim C9, amended: rdch treats two consecutively read '-' characters
as a comment even inside a string-literal or regex body, so the claim's
own example `a := 'x--y' .` (TOKEN-prefixed) never produces a StrLit
with text "x--y": the comment swallows the rest of the line, the
literal body scans as "x", and the parse aborts with "'.' expected";
but literal texts can still contain "--" when the two dashes are
separated in the raw source by a newline (see the counterexample). -/
theorem claim_C9_amended :
    reportMsg (parseTop 100 c9dashInput) = some ("'.' expected".toList) ∧
    (match parseTop 100 c9dashInput with
     | .error (.report _ st) => arenaView st.arena
     | _ => []) =
      [(T_IDENTIFIER, some ['a'], []), (T_STR_LITERAL, some ['x'], []),
       (T_EOS, none, []), (T_EOS, none, [])] := by
  decide

/-- Claim C6, counterexample.  The claim says the hex-literal digits are
lowered to lowercase.  read_hexadecimal as written stores the digits
unchanged (there is no tolower): `TOKEN a := $AB .` produces a
reachable T_BIN_DATA node with text "AB", which contains uppercase
letters. -/
theorem claim_C6_counterexample :
    (okSt (parseTop 100 "TOKEN a := $AB .".toList)).map (fun st =>
      (occAt st.arena (some 5) [0, 0],
       (getNode st.arena 1).map (fun n => (n.token, n.text)))) =
      some (some 1, some (T_BIN_DATA, some "AB".toList)) ∧
    ("AB".toList.any fun c => ('A' ≤ c ∧ c ≤ 'Z' : Prop)) = true := by
  decide

/-- A helper for building witness heaps: a node as create_node
initialises it, with the given token, text, branches and id. -/
def mkNode (t : Tok) (tx : Option (List Char)) (bs : List Nat) (i : Int) : TreeNode :=
  { token := t, text := tx, branches := bs, exportIdent := none,
    nodeTypeEnum := none, id := i, branchesIx := -1, refCnt := 1,
    branchesOutput := false, implOutput := false }

/-- Claim C5 (confirmed).  First half: for every branch slot whose
parent node is a binary-match node (T_BIN_DATA or T_BIN_FIELD …
T_BIN_FIELD_TIMES, the exact range test of output_branches_helper) and
whose child is an identifier with no id that resolves to no declared
production, the C back-end writes "-2 /* T_IDENTIFIER */, " into the
implementation stream and raises no error.  Second half: on the claim's
example (TOKEN-prefixed, see claim C1) the whole pipeline exits 0, the
branch array contains that -2 slot, and the production row is emitted
normally. -/
theorem claim_C5 :
    (∀ (st : St) (fuel : Nat) (parentTok : Tok) (bid : Nat) (branch : TreeNode) (pid : Int),
      getNode st.arena bid = some branch →
      (parentTok = T_BIN_DATA ∨
       (Tok.val T_BIN_FIELD ≤ parentTok.val ∧ parentTok.val ≤ Tok.val T_BIN_FIELD_TIMES)) →
      branch.token = T_IDENTIFIER →
      branch.id < 0 →
      find_prod_id fuel st.arena st.tree branch.text = some pid →
      pid < 0 →
      outBranchEntry fuel parentTok bid st =
        .ok { st with imp := st.imp ++ "-2 /* T_IDENTIFIER */, ".toList }) ∧
    exitedZero (mainC 300 ["t".toList] "TOKEN a := BYTE:n 'x' .".toList) = true ∧
    listContains
      (endSt (mainC 300 ["t".toList] "TOKEN a := BYTE:n 'x' .".toList) (initSt [])).imp
      "-2 /* T_IDENTIFIER */, ".toList = true ∧
    listContains
      (endSt (mainC 300 ["t".toList] "TOKEN a := BYTE:n 'x' .".toList) (initSt [])).imp
      "    // 0: production_a\n    \x7b NC_PRODUCTION, NT_A, TT_UNDEF, 0, 1, 0 \x7d,\n".toList
      = true := by
  refine ⟨?_, by set_option maxRecDepth 10000 in decide,
    by set_option maxRecDepth 10000 in decide,
    by set_option maxRecDepth 10000 in decide⟩
  intro st fuel parentTok bid branch pid hget hbin htok hid hfind hpid
  have h1 : ¬ (branch.id ≥ 0) := by omega
  have h2 : ¬ (branch.token = T_IDENTIFIER ∧ pid ≥ 0) := by
    rintro ⟨-, h⟩; omega
  have h3 : ¬ (parentTok ≠ T_BIN_DATA ∧
      (parentTok.val < Tok.val T_BIN_FIELD ∨ parentTok.val > Tok.val T_BIN_FIELD_TIMES)) := by
    rcases hbin with h | ⟨hl, hr⟩
    · rintro ⟨hne, -⟩; exact hne h
    · rintro ⟨-, h | h⟩ <;> omega
  have h5 : ¬ (0 ≤ pid) := by omega
  simp only [outBranchEntry, hget, htok, hfind, h1, h2, h3]
  simp [h1, h2, h3, h5, token2text]

/-- The witness heap for claim C5: production list `a := BYTE:n …` with
the identifier n declared nowhere; node 1 is the T_BIN_FIELD_COUNT
parent, node 0 the unresolved identifier in its only branch slot. -/
def c5wSt : St :=
  { initSt [] with
    arena := [mkNode T_IDENTIFIER (some ['n']) [] (-1),
              mkNode T_BIN_FIELD_COUNT (some "BYTE".toList) [0] 2,
              mkNode T_PRODUCTION (some ['a']) [1] 0,
              mkNode T_PROD_LIST none [2] (-1)],
    tree := some 3 }

/-- Claim C5, witness: the hypotheses of claim_C5 hold at the concrete
heap c5wSt, and the -2 slot is written there. -/
theorem claim_C5_witness :
    getNode c5wSt.arena 0 = some (mkNode T_IDENTIFIER (some ['n']) [] (-1)) ∧
    (mkNode T_IDENTIFIER (some ['n']) [] (-1)).token = T_IDENTIFIER ∧
    (mkNode T_IDENTIFIER (some ['n']) [] (-1)).id < 0 ∧
    find_prod_id 50 c5wSt.arena c5wSt.tree (some ['n']) = some (-1) ∧
    outBranchEntry 50 T_BIN_FIELD_COUNT 0 c5wSt =
      .ok { c5wSt with imp := c5wSt.imp ++ "-2 /* T_IDENTIFIER */, ".toList } := by
  refine ⟨by decide, by decide, by decide, by decide, ?_⟩
  exact claim_C5.1 c5wSt 50 T_BIN_FIELD_COUNT 0 (mkNode T_IDENTIFIER (some ['n']) [] (-1))
    (-1) (by decide) (Or.inr (by decide)) (by decide) (by decide) (by decide) (by decide)

/-- The digit stream the read_hexadecimal loop consumes: the maximal
run of isxdigit characters delivered by rdch, with the state after it. -/
def scanHex : Nat → St → Except Err (List Char × St)
  | 0, st => .error (.outOfFuel st)
  | fuel + 1, st =>
    if isxdigit st.ch then
      bindSt (rdch st) fun st1 =>
      bindM (scanHex fuel st1) fun ds st2 => .ok (chChar st.ch :: ds, st2)
    else .ok ([], st)

/-- The hexLoop accumulator is the scanned digit stream truncated to
253 stored characters. -/
theorem hexLoop_eq_scanHex :
    ∀ (fuel : Nat) (acc : List Char) (st : St) (ds : List Char) (st2 : St),
      scanHex fuel st = .ok (ds, st2) →
      hexLoop fuel acc st = .ok (acc ++ ds.take (253 - acc.length), st2) := by
  intro fuel
  induction fuel with
  | zero => intro acc st ds st2 h; simp [scanHex] at h
  | succ fuel ih =>
    intro acc st ds st2 h
    rw [scanHex] at h
    rw [hexLoop]
    by_cases hx : isxdigit st.ch
    · rw [if_pos hx] at h ⊢
      cases h1 : rdch st with
      | error e => rw [h1] at h; simp [bindSt] at h
      | ok st1 =>
        rw [h1] at h
        simp only [bindSt] at h ⊢
        cases h2 : scanHex fuel st1 with
        | error e => rw [h2] at h; simp [bindM] at h
        | ok p =>
          rw [h2] at h
          simp only [bindM] at h
          rw [Except.ok.injEq, Prod.mk.injEq] at h
          obtain ⟨hds, hst⟩ := h
          subst hst
          rw [ih _ _ _ _ h2]
          by_cases hlen : acc.length < 253
          · rw [if_pos hlen]
        -- ds = chChar st.ch :: p.1
            rw [← hds]
            have htake : (chChar st.ch :: p.1).take (253 - acc.length) =
                chChar st.ch :: p.1.take (253 - (acc.length + 1)) := by
              have : 253 - acc.length = (253 - (acc.length + 1)) + 1 := by omega
              rw [this, List.take_succ_cons]
            rw [htake]
            simp
          · rw [if_neg hlen]
            have h0 : 253 - acc.length = 0 := by omega
            have h0' : 253 - (acc ++ [chChar st.ch]).length = 0 := by
              simp; omega
            rw [← hds, h0]
            simp [h0']
    · rw [if_neg hx] at h ⊢
      rw [Except.ok.injEq, Prod.mk.injEq] at h
      obtain ⟨hds, hst⟩ := h
      subst hds
      subst hst
      simp

/-- Claim C6, amended.  First half: for every `$` literal, the resulting
T_BIN_DATA node's text is the scanned digit stream exactly as read
(case preserved — the C code has no tolower), truncated to 253 stored
digits, with a leading '0' prepended when the stored count is odd.
Second half: `$abc` (lowercase in the source) yields text "0abc",
which the emitter decodes to the bytes 0x0a, 0xbc. -/
theorem claim_C6_amended :
    (∀ (fuel : Nat) (st st1 : St) (ds : List Char) (st2 : St),
      st.ch = some '$' →
      rdch st = .ok st1 →
      scanHex fuel st1 = .ok (ds, st2) →
      read_hexadecimal fuel st =
        .ok (some st2.arena.length,
          { st2 with arena := st2.arena ++
            [mkNode T_BIN_DATA
              (some (if (ds.take 253).length % 2 = 1 then '0' :: ds.take 253
                     else ds.take 253)) [] (-1)] })) ∧
    (okSt (parseTop 100 "TOKEN a := $abc .".toList)).map (fun st =>
      (getNode st.arena 1).map (fun n => (n.token, n.text))) =
      some (some (T_BIN_DATA, some "0abc".toList)) ∧
    decodeHexPairs 2 "0abc".toList = [Char.ofNat 0x0a, Char.ofNat 0xbc] := by
  refine ⟨?_, by decide, by decide⟩
  intro fuel st st1 ds st2 hch hrd hscan
  rw [read_hexadecimal]
  rw [if_neg (by rw [hch]; simp)]
  rw [hrd]
  simp only [bindSt]
  rw [show hexLoop fuel [] st1 = .ok ([] ++ ds.take (253 - [].length), st2) from
    hexLoop_eq_scanHex fuel [] st1 ds st2 hscan]
  simp only [bindM, List.nil_append, List.length_nil, Nat.sub_zero]
  simp [create_node, mkNode]

/-- Claim C6, witness: a concrete state whose current character is '$'
with "AbC." pending; the digit stream scans as "AbC" and the node text
is "0AbC" — digits preserved, leading zero for the odd count. -/
def c6wSt : St := { initSt "AbC.".toList with ch := some '$' }

/-- The state after the leading rdch of read_hexadecimal at c6wSt. -/
def c6wSt1 : St := match rdch c6wSt with | .ok s => s | .error _ => c6wSt

/-- The state after the digit scan at c6wSt1. -/
def c6wSt2 : St := match scanHex 50 c6wSt1 with | .ok (_, s) => s | .error _ => c6wSt1

/-- Claim C6, witness proper. -/
theorem claim_C6_witness :
    c6wSt.ch = some '$' ∧
    rdch c6wSt = .ok c6wSt1 ∧
    scanHex 50 c6wSt1 = .ok ("AbC".toList, c6wSt2) ∧
    read_hexadecimal 50 c6wSt =
      .ok (some c6wSt2.arena.length,
        { c6wSt2 with arena := c6wSt2.arena ++
          [mkNode T_BIN_DATA (some "0AbC".toList) [] (-1)] }) := by
  refine ⟨by decide, by decide, by decide, ?_⟩
  have h := claim_C6_amended.1 50 c6wSt c6wSt1 "AbC".toList c6wSt2
    (by decide) (by decide) (by decide)
  rw [h]
  decide

/-- The body stream the read_str_literal loop consumes: the characters
rdch delivers until the terminator or EOF comes up, with the state at
that point.  Mirrors the loop's own reading, one rdch per character. -/
def scanBody : Nat → Option Char → St → Except Err (List Char × St)
  | 0, _, st => .error (.outOfFuel st)
  | fuel + 1, term, st =>
    bindSt (rdch st) fun st1 =>
    if st1.ch ≠ term ∧ st1.ch ≠ none then
      bindM (scanBody fuel term st1) fun ds st2 => .ok (chChar st1.ch :: ds, st2)
    else .ok ([], st1)

/-- What the current character contributes to the literal buffer: one
character unless it is the terminator or EOF (the length bound is
applied by the caller). -/
def candStore (term : Option Char) (c : Option Char) : List Char :=
  if c ≠ term ∧ c ≠ none then [chChar c] else []

/-- Shifting a short chunk through a 255-capped take. -/
theorem take_chunk_append (C X acc : List Char) :
    (acc ++ C.take (255 - acc.length)) ++
      X.take (255 - (acc ++ C.take (255 - acc.length)).length)
    = acc ++ (C ++ X).take (255 - acc.length) := by
  rw [List.take_append_eq_append_take, ← List.append_assoc]
  congr 1
  simp only [List.length_append, List.length_take]
  congr 1
  omega

/-- The strLitLoop accumulator is the scanned body stream truncated to
255 stored characters. -/
theorem strLitLoop_eq_scanBody :
    ∀ (fuel : Nat) (term : Option Char) (acc : List Char) (st : St)
      (body : List Char) (st2 : St),
      scanBody fuel term st = .ok (body, st2) →
      strLitLoop fuel term acc st =
        .ok (acc ++ (candStore term st.ch ++ body).take (255 - acc.length), st2) := by
  intro fuel
  induction fuel with
  | zero => intro term acc st body st2 h; simp [scanBody] at h
  | succ fuel ih =>
    intro term acc st body st2 h
    rw [scanBody] at h
    rw [strLitLoop]
    cases h1 : rdch st with
    | error e => rw [h1] at h; simp [bindSt] at h
    | ok st1 =>
      rw [h1] at h
      simp only [bindSt] at h ⊢
      have hacc : (if st.ch ≠ term ∧ st.ch ≠ none ∧ acc.length < 255 then
          acc ++ [chChar st.ch] else acc) =
          acc ++ (candStore term st.ch).take (255 - acc.length) := by
        rw [candStore]
        by_cases hc : st.ch ≠ term ∧ st.ch ≠ none
        · rw [if_pos hc]
          by_cases hlen : acc.length < 255
          · rw [if_pos ⟨hc.1, hc.2, hlen⟩]
            have : (255 - acc.length) = (255 - acc.length - 1) + 1 := by omega
            rw [this, List.take_succ_cons, List.take_nil]
          · rw [if_neg (by rintro ⟨-, -, h⟩; omega)]
            have : 255 - acc.length = 0 := by omega
            rw [this, List.take_zero, List.append_nil]
        · rw [if_neg hc, if_neg (by rintro ⟨h1, h2, -⟩; exact hc ⟨h1, h2⟩)]
          simp
      by_cases hcont : st1.ch ≠ term ∧ st1.ch ≠ none
      · rw [if_pos hcont] at h ⊢
        cases h2 : scanBody fuel term st1 with
        | error e => rw [h2] at h; simp [bindM] at h
        | ok p =>
          rw [h2] at h
          simp only [bindM] at h
          rw [Except.ok.injEq, Prod.mk.injEq] at h
          obtain ⟨hbody, hst⟩ := h
          subst hst
          rw [hacc, ih term _ st1 p.1 p.2 h2, ← hbody]
          have hc1 : candStore term st1.ch = [chChar st1.ch] := by
            rw [candStore, if_pos hcont]
          rw [hc1]
          rw [Except.ok.injEq, Prod.mk.injEq]
          refine ⟨?_, rfl⟩
          exact take_chunk_append (candStore term st.ch) ([chChar st1.ch] ++ p.1) acc
      · rw [if_neg hcont] at h ⊢
        rw [Except.ok.injEq, Prod.mk.injEq] at h
        obtain ⟨hbody, hst⟩ := h
        subst hbody
        subst hst
        rw [hacc]
        have : candStore term st.ch ++ [] = candStore term st.ch := List.append_nil _
        rw [this]

/-- Claim C10 (confirmed).  For every string literal whose body exceeds
255 bytes, read_str_literal returns normally (no report): it stores
exactly the first 255 body bytes as the node text, consumes the whole
body through the closing quote and one character beyond it, and the
stored text has length 255 — within the 256-byte buffer the C code
writes (tmp index never exceeds 255 because of the ix < 255 store
guard, mirrored by the 255-truncation here). -/
theorem claim_C10 :
    ∀ (fuel : Nat) (st : St) (q : Char) (body : List Char) (st2 st3 : St),
      st.ch = some q →
      scanBody fuel (some q) st = .ok (body, st2) →
      st2.ch = some q →
      body.length > 255 →
      rdch st2 = .ok st3 →
      read_str_literal fuel st =
        .ok (st3.arena.length,
          { st3 with arena := st3.arena ++
            [mkNode T_STR_LITERAL (some (body.take 255)) [] (-1)] }) ∧
      (body.take 255).length = 255 := by
  intro fuel st q body st2 st3 hq hscan hq2 hlen hrd
  have htake : (body.take 255).length = 255 := by
    rw [List.length_take]; omega
  refine ⟨?_, htake⟩
  rw [read_str_literal]
  have hcand : candStore st.ch st.ch = [] := by
    rw [candStore]; simp
  have hloop := strLitLoop_eq_scanBody fuel st.ch [] st body st2 (by rw [hq]; exact hscan)
  rw [hcand, List.nil_append, List.nil_append, List.length_nil, Nat.sub_zero] at hloop
  rw [hloop]
  simp only [bindM]
  rw [hrd]
  simp only [bindSt]
  rw [if_neg (by intro hnil; rw [hnil] at htake; simp at htake)]
  simp [create_node, mkNode]

/-- The 260-byte witness body for claim C10. -/
def c10Body : List Char := List.replicate 260 'a'

/-- The witness scanner state: current character is the opening quote,
with the body, the closing quote and nothing else pending. -/
def c10St : St := { initSt (c10Body ++ [sq]) with ch := some sq }

/-- The state at the closing quote. -/
def c10St2 : St :=
  match scanBody 600 (some sq) c10St with
  | .ok (_, s) => s
  | .error _ => c10St

/-- The state one character past the closing quote. -/
def c10St3 : St :=
  match rdch c10St2 with
  | .ok s => s
  | .error _ => c10St2

set_option maxRecDepth 100000 in
/-- Claim C10, witness: the hypotheses hold at a concrete literal with a
260-character body, and the stored text is its first 255 bytes. -/
theorem claim_C10_witness :
    c10St.ch = some sq ∧
    scanBody 600 (some sq) c10St = .ok (c10Body, c10St2) ∧
    c10St2.ch = some sq ∧
    c10Body.length > 255 ∧
    rdch c10St2 = .ok c10St3 ∧
    read_str_literal 600 c10St =
      .ok (c10St3.arena.length,
        { c10St3 with arena := c10St3.arena ++
          [mkNode T_STR_LITERAL (some (c10Body.take 255)) [] (-1)] }) := by
  refine ⟨by decide, by decide, by decide, by decide, by decide, ?_⟩
  exact (claim_C10 600 c10St sq c10Body c10St2 c10St3 (by decide) (by decide)
    (by decide) (by decide) (by decide)).1

end Ebnfcomp
